import Mathlib

/-!
Verification of the Minesweeper rules engine in src/main.rs.

The board is the source's `[[Cell; CELL_ROWS]; CELL_COLUMNS]` array, modelled
as a list of columns and read as board[x][y].  The grid dimensions and the
mine count, which the source fixes as module constants, are carried as fields
of `Game` and every function reads them from there.  The RNG shuffle inside
`add_mines` cannot be embedded, so the shuffled position list is passed as an
argument; theorems quantify over any permutation of the full position list.
The worklist loop of `reveal_multiple` runs on an explicit fuel that is always
sufficient (see `revealLoopF_fuel_irrelevant` and `revealLoop_unfold` below,
which recover the exact one-step recurrence of the source loop).  A worklist
entry outside the stored grid, on which the source's array indexing would
panic, is skipped; such entries never arise when the entry coordinate is on
the grid.
-/

inductive CellValue where
  | Mined : CellValue
  | Number : Nat → CellValue
  deriving DecidableEq, Repr

inductive CellStatus where
  | Covered : CellStatus
  | Revealed : CellStatus
  | Flagged : CellStatus
  deriving DecidableEq, Repr

structure Cell where
  status : CellStatus
  value : CellValue
  deriving DecidableEq, Repr

inductive GameStatus where
  | Playing : GameStatus
  | Pressing : GameStatus
  | Lost : GameStatus
  | Won : GameStatus
  deriving DecidableEq, Repr

structure Game where
  rows : Nat
  columns : Nat
  mineCount : Nat
  board : List (List Cell)
  status : GameStatus
  revealed_count : Nat
  flag_count : Nat
  deriving DecidableEq, Repr

def blankCell : Cell := { status := CellStatus.Covered, value := CellValue.Number 0 }

def modifyIdx {α : Type} (l : List α) (i : Nat) (f : α → α) : List α :=
  match l, i with
  | [], _ => []
  | a :: as, 0 => f a :: as
  | a :: as, n + 1 => a :: modifyIdx as n f

def boardGet (b : List (List Cell)) (x y : Nat) : Cell :=
  (b.getD x []).getD y blankCell

def boardSet (b : List (List Cell)) (x y : Nat) (f : Cell → Cell) : List (List Cell) :=
  modifyIdx b x (fun col => modifyIdx col y f)

def boardCountP (b : List (List Cell)) (p : Cell → Bool) : Nat :=
  (b.map (fun col => col.countP p)).sum

def Game.getCell (g : Game) (x y : Nat) : Cell := boardGet g.board x y

def Game.setCellStatus (g : Game) (x y : Nat) (s : CellStatus) : Game :=
  { g with board := boardSet g.board x y (fun c => { c with status := s }) }

def Game.setCellValue (g : Game) (x y : Nat) (v : CellValue) : Game :=
  { g with board := boardSet g.board x y (fun c => { c with value := v }) }

/-- Neighbor enumeration of the source's `with_surrounding_cells`, in the
order the source invokes its callback. -/
def surroundingCells (columns rows x y : Nat) : List (Nat × Nat) :=
  let first_y : Bool := y == 0
  let last_y : Bool := y == rows - 1
  let first_x : Bool := x == 0
  let last_x : Bool := x == columns - 1
  (if !first_x && !first_y then [(x - 1, y - 1)] else []) ++
  (if !first_x then [(x - 1, y)] else []) ++
  (if !first_y then [(x, y - 1)] else []) ++
  (if !last_x && !last_y then [(x + 1, y + 1)] else []) ++
  (if !last_x then [(x + 1, y)] else []) ++
  (if !last_y then [(x, y + 1)] else []) ++
  (if !first_x && !last_y then [(x - 1, y + 1)] else []) ++
  (if !last_x && !first_y then [(x + 1, y - 1)] else [])

/-- Count of mined neighbors, the loop body of `add_numbers`. -/
def mineAdj (g : Game) (x y : Nat) : Nat :=
  (surroundingCells g.columns g.rows x y).countP
    (fun q => decide ((g.getCell q.1 q.2).value = CellValue.Mined))

/-- Count of flagged neighbors, the first loop of `reveal_special`. -/
def flaggedAdj (g : Game) (x y : Nat) : Nat :=
  (surroundingCells g.columns g.rows x y).countP
    (fun q => decide ((g.getCell q.1 q.2).status = CellStatus.Flagged))

/-- All grid positions in the row-major order the source builds them
(`for y in 0..CELL_ROWS { for x in 0..CELL_COLUMNS { push (x, y) } }`). -/
def allPositions (rows columns : Nat) : List (Nat × Nat) :=
  (List.range rows).flatMap (fun y => (List.range columns).map (fun x => (x, y)))

/-- `add_mines`, with the result of the RNG shuffle passed in as `shuffled`. -/
def Game.add_mines (g : Game) (shuffled : List (Nat × Nat)) : Game :=
  (shuffled.take g.mineCount).foldl (fun gg p => gg.setCellValue p.1 p.2 CellValue.Mined) g

/-- Body of the `add_numbers` double loop at one position. -/
def numberStep (g : Game) (p : Nat × Nat) : Game :=
  if (g.getCell p.1 p.2).value = CellValue.Mined then g
  else g.setCellValue p.1 p.2 (CellValue.Number (mineAdj g p.1 p.2))

def Game.add_numbers (g : Game) : Game :=
  (allPositions g.rows g.columns).foldl numberStep g

def coveredP : Cell → Bool := fun c => decide (c.status = CellStatus.Covered)

/-- Fuel bound for the reveal worklist: each iteration either shortens the
worklist or reveals a covered cell while pushing at most eight entries. -/
def revealFuel (g : Game) (stack : List (Nat × Nat)) : Nat :=
  9 * boardCountP g.board coveredP + stack.length

/-- The `while let Some(cell) = reveal_vec.pop()` loop of `reveal_multiple`.
The worklist is kept top-first, so the pushes of one iteration are appended
reversed (the source pushes onto a Vec and pops from its end).  The source's
locals are inlined: its `self` after `board[x][y].status = Revealed` is
`g.setCellStatus x y CellStatus.Revealed`, and after the subsequent
`revealed_count += 1` it additionally has `revealed_count := g.revealed_count
+ 1`; the setter changes no other field, so the win test
`revealed_count >= CELL_ROWS * CELL_COLUMNS - MINE_COUNT` reads
`g.revealed_count + 1 ≥ g.rows * g.columns - g.mineCount`. -/
def revealLoopF : Nat → Game → List (Nat × Nat) → Game
  | _, g, [] => g
  | 0, g, _ :: _ => g
  | fuel + 1, g, (x, y) :: rest =>
    if x < g.board.length ∧ y < (g.board.getD x []).length then
      if (g.getCell x y).status ≠ CellStatus.Covered then
        revealLoopF fuel g rest
      else if ((g.setCellStatus x y CellStatus.Revealed).getCell x y).value = CellValue.Mined then
        { (g.setCellStatus x y CellStatus.Revealed).setCellStatus x y CellStatus.Revealed
            with status := GameStatus.Lost }
      else if g.revealed_count + 1 ≥ g.rows * g.columns - g.mineCount then
        { g.setCellStatus x y CellStatus.Revealed with
            revealed_count := g.revealed_count + 1, status := GameStatus.Won }
      else if ((g.setCellStatus x y CellStatus.Revealed).getCell x y).value = CellValue.Number 0 then
        revealLoopF fuel
          { g.setCellStatus x y CellStatus.Revealed with revealed_count := g.revealed_count + 1 }
          (((surroundingCells g.columns g.rows x y).filter
            (fun q => decide (((g.setCellStatus x y CellStatus.Revealed).getCell q.1 q.2).status
              = CellStatus.Covered))).reverse ++ rest)
      else
        revealLoopF fuel
          { g.setCellStatus x y CellStatus.Revealed with revealed_count := g.revealed_count + 1 }
          rest
    else
      revealLoopF fuel g rest

def revealLoop (g : Game) (stack : List (Nat × Nat)) : Game :=
  revealLoopF (revealFuel g stack + 1) g stack

def Game.reveal_multiple (g : Game) (x y : Nat) : Game :=
  revealLoop g [(x, y)]

/-- Body of the second `with_surrounding_cells` closure in `reveal_special`:
reveal a neighbor if it is covered at the time the closure runs. -/
def chordStep (gg : Game) (q : Nat × Nat) : Game :=
  if (gg.getCell q.1 q.2).status = CellStatus.Covered then gg.reveal_multiple q.1 q.2 else gg

def Game.reveal_special (g : Game) (x y : Nat) : Game :=
  if (g.getCell x y).status ≠ CellStatus.Revealed then g
  else
    match (g.getCell x y).value with
    | CellValue.Mined => g
    | CellValue.Number cell_number =>
      if flaggedAdj g x y = cell_number then
        (surroundingCells g.columns g.rows x y).foldl chordStep g
      else g

inductive Message where
  | NewGame : Message
  | Pressing : Bool → Message
  | Reveal : Nat → Nat → Message
  | SpecialReveal : Nat → Nat → Message
  | Flag : Nat → Nat → Message
  deriving DecidableEq, Repr

/-- `<Game as Sandbox>::new`, with the shuffle outcome passed in. -/
def Game.new (rows columns mineCount : Nat) (shuffled : List (Nat × Nat)) : Game :=
  let game : Game := {
    rows := rows
    columns := columns
    mineCount := mineCount
    board := List.replicate columns (List.replicate rows blankCell)
    status := GameStatus.Playing
    revealed_count := 0
    flag_count := 0 }
  (game.add_mines shuffled).add_numbers

/-- `<Game as Sandbox>::update`.  `shuffled` is the shuffle outcome used when
the message is `NewGame` and is ignored otherwise. -/
def Game.update (g : Game) (m : Message) (shuffled : List (Nat × Nat)) : Game :=
  match m with
  | Message.NewGame => Game.new g.rows g.columns g.mineCount shuffled
  | Message.Pressing true => { g with status := GameStatus.Pressing }
  | Message.Pressing false => { g with status := GameStatus.Playing }
  | Message.Reveal x y => g.reveal_multiple x y
  | Message.SpecialReveal x y => g.reveal_special x y
  | Message.Flag x y =>
    if g.status ≠ GameStatus.Playing then g
    else
      match (g.getCell x y).status with
      | CellStatus.Covered =>
        if g.mineCount = g.flag_count then g
        else { g.setCellStatus x y CellStatus.Flagged with flag_count := g.flag_count + 1 }
      | CellStatus.Flagged =>
        { g.setCellStatus x y CellStatus.Covered with flag_count := g.flag_count - 1 }
      | CellStatus.Revealed => g

/-- The stored grid has `columns` columns of `rows` cells each, as the
source's fixed-size array always does. -/
def BoardShape (g : Game) : Prop :=
  g.board.length = g.columns ∧ ∀ i, i < g.columns → (g.board.getD i []).length = g.rows

/-- Coordinates the UI can actually send: the view iterates cells over the
grid, so every `Reveal`, `SpecialReveal` and `Flag` message is in bounds. -/
def ValidMsg (g : Game) : Message → Prop
  | Message.Reveal x y => x < g.columns ∧ y < g.rows
  | Message.SpecialReveal x y => x < g.columns ∧ y < g.rows
  | Message.Flag x y => x < g.columns ∧ y < g.rows
  | _ => True

/-- States of the engine: a fresh game, closed under `update` with messages
the view can emit. -/
inductive Reachable : Game → Prop where
  | new (rows columns mineCount : Nat) (shuffled : List (Nat × Nat)) :
      Reachable (Game.new rows columns mineCount shuffled)
  | step {g : Game} (m : Message) (shuffled : List (Nat × Nat)) :
      Reachable g → ValidMsg g m → Reachable (g.update m shuffled)

def minedCount (g : Game) : Nat :=
  boardCountP g.board (fun c => decide (c.value = CellValue.Mined))

def flaggedCount (g : Game) : Nat :=
  boardCountP g.board (fun c => decide (c.status = CellStatus.Flagged))

def revealedCells (g : Game) : Nat :=
  boardCountP g.board (fun c => decide (c.status = CellStatus.Revealed))

/-- Revealed cells that are not mines: the cells `reveal_multiple` counts. -/
def safeRevealedCells (g : Game) : Nat :=
  boardCountP g.board (fun c => decide (c.status = CellStatus.Revealed ∧ c.value ≠ CellValue.Mined))

/-- Every numbered cell carries the true count of its mined neighbors. -/
def NumbersCorrect (g : Game) : Prop :=
  ∀ x, x < g.columns → ∀ y, y < g.rows →
    (g.getCell x y).value ≠ CellValue.Mined →
    (g.getCell x y).value = CellValue.Number (mineAdj g x y)

def Game.withStatus (g : Game) (s : GameStatus) : Game := { g with status := s }

/-- How a run that ignores the status field transports an input status: the
run either kept the status (then the input status shows through) or ended it
at `Lost`/`Won`. -/
def pressLike (r : Game) (s : GameStatus) : Game :=
  if r.status = GameStatus.Playing then { r with status := s } else r

/-! ### List and board infrastructure -/

theorem modifyIdx_length {α : Type} (l : List α) (i : Nat) (f : α → α) :
    (modifyIdx l i f).length = l.length := by
  induction l generalizing i with
  | nil => rfl
  | cons a as ih =>
    cases i with
    | zero => rfl
    | succ n => simp only [modifyIdx, List.length_cons, ih]

theorem modifyIdx_oob {α : Type} (l : List α) (i : Nat) (f : α → α) (h : l.length ≤ i) :
    modifyIdx l i f = l := by
  induction l generalizing i with
  | nil => rfl
  | cons a as ih =>
    cases i with
    | zero => simp at h
    | succ n =>
      simp only [modifyIdx, List.cons.injEq, true_and]
      exact ih n (by simpa using h)

theorem modifyIdx_getD_self {α : Type} (l : List α) (i : Nat) (f : α → α) (d : α)
    (h : i < l.length) : (modifyIdx l i f).getD i d = f (l.getD i d) := by
  induction l generalizing i with
  | nil => simp at h
  | cons a as ih =>
    cases i with
    | zero => rfl
    | succ n => simpa [modifyIdx] using ih n (by simpa using h)

theorem modifyIdx_getD_ne {α : Type} (l : List α) (i j : Nat) (f : α → α) (d : α)
    (h : i ≠ j) : (modifyIdx l i f).getD j d = l.getD j d := by
  induction l generalizing i j with
  | nil => rfl
  | cons a as ih =>
    cases i with
    | zero =>
      cases j with
      | zero => exact absurd rfl h
      | succ m => rfl
    | succ n =>
      cases j with
      | zero => rfl
      | succ m => simpa [modifyIdx] using ih n m (by omega)

theorem modifyIdx_eq_self {α : Type} (l : List α) (i : Nat) (f : α → α) (d : α)
    (h : f (l.getD i d) = l.getD i d) : modifyIdx l i f = l := by
  induction l generalizing i with
  | nil => rfl
  | cons a as ih =>
    cases i with
    | zero =>
      simp only [modifyIdx, List.cons.injEq, and_true]
      simpa using h
    | succ n =>
      simp only [modifyIdx, List.cons.injEq, true_and]
      exact ih n (by simpa using h)

theorem countP_modifyIdx {α : Type} (p : α → Bool) (f : α → α) (d : α) (l : List α) (i : Nat)
    (h : i < l.length) :
    (modifyIdx l i f).countP p + (if p (l.getD i d) then 1 else 0)
      = l.countP p + (if p (f (l.getD i d)) then 1 else 0) := by
  induction l generalizing i with
  | nil => simp at h
  | cons a as ih =>
    cases i with
    | zero =>
      simp only [modifyIdx, List.countP_cons, List.getD_cons_zero]
      omega
    | succ n =>
      simp only [modifyIdx, List.countP_cons, List.getD_cons_succ]
      have := ih n (by simpa using h)
      omega

theorem sum_map_modifyIdx {α : Type} (m : α → Nat) (f : α → α) (d : α) (l : List α) (i : Nat)
    (h : i < l.length) :
    ((modifyIdx l i f).map m).sum + m (l.getD i d) = (l.map m).sum + m (f (l.getD i d)) := by
  induction l generalizing i with
  | nil => simp at h
  | cons a as ih =>
    cases i with
    | zero => simp only [modifyIdx, List.map_cons, List.sum_cons, List.getD_cons_zero]; omega
    | succ n =>
      simp only [modifyIdx, List.map_cons, List.sum_cons, List.getD_cons_succ]
      have := ih n (by simpa using h)
      omega

theorem boardSet_length (b : List (List Cell)) (x y : Nat) (f : Cell → Cell) :
    (boardSet b x y f).length = b.length :=
  modifyIdx_length b x _

theorem boardSet_col_length (b : List (List Cell)) (x y : Nat) (f : Cell → Cell) (i : Nat) :
    ((boardSet b x y f).getD i []).length = (b.getD i []).length := by
  unfold boardSet
  by_cases hix : x = i
  · subst hix
    by_cases hx : x < b.length
    · rw [modifyIdx_getD_self _ _ _ _ hx, modifyIdx_length]
    · rw [modifyIdx_oob _ _ _ (Nat.le_of_not_lt hx)]
  · rw [modifyIdx_getD_ne _ _ _ _ _ hix]

theorem boardGet_boardSet_self (b : List (List Cell)) (x y : Nat) (f : Cell → Cell)
    (hx : x < b.length) (hy : y < (b.getD x []).length) :
    boardGet (boardSet b x y f) x y = f (boardGet b x y) := by
  unfold boardGet boardSet
  rw [modifyIdx_getD_self _ _ _ _ hx, modifyIdx_getD_self _ _ _ _ hy]

theorem boardGet_boardSet_ne (b : List (List Cell)) (x y a c : Nat) (f : Cell → Cell)
    (h : ¬(a = x ∧ c = y)) :
    boardGet (boardSet b x y f) a c = boardGet b a c := by
  unfold boardGet boardSet
  by_cases hax : a = x
  · subst hax
    have hcy : y ≠ c := fun hc => h ⟨rfl, hc.symm⟩
    by_cases hxb : a < b.length
    · rw [modifyIdx_getD_self _ _ _ _ hxb, modifyIdx_getD_ne _ _ _ _ _ hcy]
    · rw [modifyIdx_oob _ _ _ (Nat.le_of_not_lt hxb)]
  · rw [modifyIdx_getD_ne _ _ _ _ _ (fun hc => hax hc.symm)]

theorem boardSet_oob (b : List (List Cell)) (x y : Nat) (f : Cell → Cell)
    (h : ¬(x < b.length ∧ y < (b.getD x []).length)) :
    boardSet b x y f = b := by
  unfold boardSet
  by_cases hx : x < b.length
  · have hy : (b.getD x []).length ≤ y := by
      rcases Nat.lt_or_ge y (b.getD x []).length with hlt | hge
      · exact absurd ⟨hx, hlt⟩ h
      · exact hge
    exact modifyIdx_eq_self _ _ _ [] (modifyIdx_oob _ _ _ hy)
  · exact modifyIdx_oob _ _ _ (Nat.le_of_not_lt hx)

theorem boardCountP_boardSet (b : List (List Cell)) (x y : Nat) (f : Cell → Cell) (p : Cell → Bool)
    (hx : x < b.length) (hy : y < (b.getD x []).length) :
    boardCountP (boardSet b x y f) p + (if p (boardGet b x y) then 1 else 0)
      = boardCountP b p + (if p (f (boardGet b x y)) then 1 else 0) := by
  have h1 := sum_map_modifyIdx (fun col => col.countP p) (fun col => modifyIdx col y f) [] b x hx
  have h2 := countP_modifyIdx p f blankCell (b.getD x []) y hy
  simp only at h1
  unfold boardCountP boardSet boardGet
  omega

theorem boardCountP_boardSet_invariant (b : List (List Cell)) (x y : Nat) (f : Cell → Cell)
    (p : Cell → Bool) (h : p (f (boardGet b x y)) = p (boardGet b x y)) :
    boardCountP (boardSet b x y f) p = boardCountP b p := by
  by_cases hb : x < b.length ∧ y < (b.getD x []).length
  · have := boardCountP_boardSet b x y f p hb.1 hb.2
    rw [h] at this
    omega
  · rw [boardSet_oob _ _ _ _ hb]

theorem countP_pos_of_getD (l : List Cell) (y : Nat) (p : Cell → Bool)
    (hblank : p blankCell = false) (h : p (l.getD y blankCell) = true) :
    1 ≤ l.countP p := by
  induction l generalizing y with
  | nil =>
    simp only [List.getD_nil] at h
    rw [hblank] at h
    exact absurd h (by simp)
  | cons a as ih =>
    cases y with
    | zero =>
      simp only [List.getD_cons_zero] at h
      simp [List.countP_cons, h]
    | succ n =>
      simp only [List.getD_cons_succ] at h
      have := ih n h
      simp only [List.countP_cons]
      omega

theorem boardCountP_pos (b : List (List Cell)) (x y : Nat) (p : Cell → Bool)
    (hblank : p blankCell = false) (h : p (boardGet b x y) = true) :
    1 ≤ boardCountP b p := by
  unfold boardGet at h
  induction b generalizing x with
  | nil =>
    simp only [List.getD_nil] at h
    exact countP_pos_of_getD [] y p hblank (by simpa using h)
  | cons col cols ih =>
    cases x with
    | zero =>
      simp only [List.getD_cons_zero] at h
      have := countP_pos_of_getD col y p hblank h
      unfold boardCountP
      simp only [List.map_cons, List.sum_cons]
      omega
    | succ n =>
      simp only [List.getD_cons_succ] at h
      have := ih n h
      unfold boardCountP at this
      unfold boardCountP
      simp only [List.map_cons, List.sum_cons]
      omega

/-! ### Game record conveniences -/

theorem withStatus_board (g : Game) (s : GameStatus) : (g.withStatus s).board = g.board := rfl

theorem withStatus_rows (g : Game) (s : GameStatus) : (g.withStatus s).rows = g.rows := rfl

theorem withStatus_columns (g : Game) (s : GameStatus) : (g.withStatus s).columns = g.columns := rfl

theorem withStatus_mineCount (g : Game) (s : GameStatus) : (g.withStatus s).mineCount = g.mineCount := rfl

theorem withStatus_revealed (g : Game) (s : GameStatus) :
    (g.withStatus s).revealed_count = g.revealed_count := rfl

theorem withStatus_flag (g : Game) (s : GameStatus) : (g.withStatus s).flag_count = g.flag_count := rfl

theorem withStatus_status (g : Game) (s : GameStatus) : (g.withStatus s).status = s := rfl

theorem withStatus_getCell (g : Game) (s : GameStatus) (x y : Nat) :
    (g.withStatus s).getCell x y = g.getCell x y := rfl

theorem withStatus_self (g : Game) : g.withStatus g.status = g := rfl

theorem withStatus_withStatus (g : Game) (s t : GameStatus) :
    (g.withStatus s).withStatus t = g.withStatus t := rfl

theorem setCellStatus_withStatus (g : Game) (x y : Nat) (c : CellStatus) (s : GameStatus) :
    (g.withStatus s).setCellStatus x y c = (g.setCellStatus x y c).withStatus s := rfl

theorem getCell_setCellStatus_self (g : Game) (x y : Nat) (s : CellStatus)
    (hx : x < g.board.length) (hy : y < (g.board.getD x []).length) :
    (g.setCellStatus x y s).getCell x y = { g.getCell x y with status := s } :=
  boardGet_boardSet_self g.board x y _ hx hy

theorem getCell_setCellStatus_ne (g : Game) (x y a c : Nat) (s : CellStatus)
    (h : ¬(a = x ∧ c = y)) :
    (g.setCellStatus x y s).getCell a c = g.getCell a c :=
  boardGet_boardSet_ne g.board x y a c _ h

theorem getCell_setCellValue_self (g : Game) (x y : Nat) (v : CellValue)
    (hx : x < g.board.length) (hy : y < (g.board.getD x []).length) :
    (g.setCellValue x y v).getCell x y = { g.getCell x y with value := v } :=
  boardGet_boardSet_self g.board x y _ hx hy

theorem getCell_setCellValue_ne (g : Game) (x y a c : Nat) (v : CellValue)
    (h : ¬(a = x ∧ c = y)) :
    (g.setCellValue x y v).getCell a c = g.getCell a c :=
  boardGet_boardSet_ne g.board x y a c _ h

theorem getCell_setCellStatus_value (g : Game) (x y a c : Nat) (s : CellStatus) :
    ((g.setCellStatus x y s).getCell a c).value = (g.getCell a c).value := by
  by_cases h : a = x ∧ c = y
  · obtain ⟨rfl, rfl⟩ := h
    by_cases hb : a < g.board.length ∧ c < (g.board.getD a []).length
    · rw [getCell_setCellStatus_self g a c s hb.1 hb.2]
    · unfold Game.setCellStatus Game.getCell
      rw [boardSet_oob _ _ _ _ hb]
  · rw [getCell_setCellStatus_ne g x y a c s h]

theorem getCell_setCellValue_status (g : Game) (x y a c : Nat) (v : CellValue) :
    ((g.setCellValue x y v).getCell a c).status = (g.getCell a c).status := by
  by_cases h : a = x ∧ c = y
  · obtain ⟨rfl, rfl⟩ := h
    by_cases hb : a < g.board.length ∧ c < (g.board.getD a []).length
    · rw [getCell_setCellValue_self g a c v hb.1 hb.2]
    · unfold Game.setCellValue Game.getCell
      rw [boardSet_oob _ _ _ _ hb]
  · rw [getCell_setCellValue_ne g x y a c v h]

theorem boardShape_setCellStatus (g : Game) (x y : Nat) (s : CellStatus)
    (h : BoardShape g) : BoardShape (g.setCellStatus x y s) := by
  obtain ⟨h1, h2⟩ := h
  refine ⟨?_, ?_⟩
  · show (boardSet g.board x y _).length = g.columns
    rw [boardSet_length, h1]
  · intro i hi
    show ((boardSet g.board x y _).getD i []).length = g.rows
    rw [boardSet_col_length]
    exact h2 i hi

theorem boardShape_setCellValue (g : Game) (x y : Nat) (v : CellValue)
    (h : BoardShape g) : BoardShape (g.setCellValue x y v) := by
  obtain ⟨h1, h2⟩ := h
  refine ⟨?_, ?_⟩
  · show (boardSet g.board x y _).length = g.columns
    rw [boardSet_length, h1]
  · intro i hi
    show ((boardSet g.board x y _).getD i []).length = g.rows
    rw [boardSet_col_length]
    exact h2 i hi

theorem boardShape_bounds (g : Game) (h : BoardShape g) (x y : Nat) :
    (x < g.board.length ∧ y < (g.board.getD x []).length) ↔ (x < g.columns ∧ y < g.rows) := by
  obtain ⟨h1, h2⟩ := h
  constructor
  · rintro ⟨hx, hy⟩
    rw [h1] at hx
    rw [h2 x hx] at hy
    exact ⟨hx, hy⟩
  · rintro ⟨hx, hy⟩
    refine ⟨by rw [h1]; exact hx, ?_⟩
    rw [h2 x hx]
    exact hy

/-! ### One-step characterization of the reveal loop -/

theorem revealLoopF_nil (fuel : Nat) (g : Game) : revealLoopF fuel g [] = g := by
  cases fuel <;> rfl

theorem revealLoopF_succ_oob (fuel : Nat) (g : Game) (x y : Nat) (rest : List (Nat × Nat))
    (h : ¬(x < g.board.length ∧ y < (g.board.getD x []).length)) :
    revealLoopF (fuel + 1) g ((x, y) :: rest) = revealLoopF fuel g rest := by
  conv_lhs => rw [revealLoopF]
  rw [if_neg h]

theorem revealLoopF_succ_skip (fuel : Nat) (g : Game) (x y : Nat) (rest : List (Nat × Nat))
    (hb : x < g.board.length ∧ y < (g.board.getD x []).length)
    (h : (g.getCell x y).status ≠ CellStatus.Covered) :
    revealLoopF (fuel + 1) g ((x, y) :: rest) = revealLoopF fuel g rest := by
  conv_lhs => rw [revealLoopF]
  rw [if_pos hb, if_pos h]

theorem revealLoopF_succ_mine (fuel : Nat) (g : Game) (x y : Nat) (rest : List (Nat × Nat))
    (hb : x < g.board.length ∧ y < (g.board.getD x []).length)
    (hcov : (g.getCell x y).status = CellStatus.Covered)
    (hmine : ((g.setCellStatus x y CellStatus.Revealed).getCell x y).value = CellValue.Mined) :
    revealLoopF (fuel + 1) g ((x, y) :: rest)
      = { (g.setCellStatus x y CellStatus.Revealed).setCellStatus x y CellStatus.Revealed
            with status := GameStatus.Lost } := by
  conv_lhs => rw [revealLoopF]
  rw [if_pos hb, if_neg (not_not_intro hcov), if_pos hmine]

theorem revealLoopF_succ_won (fuel : Nat) (g : Game) (x y : Nat) (rest : List (Nat × Nat))
    (hb : x < g.board.length ∧ y < (g.board.getD x []).length)
    (hcov : (g.getCell x y).status = CellStatus.Covered)
    (hmine : ¬((g.setCellStatus x y CellStatus.Revealed).getCell x y).value = CellValue.Mined)
    (hwin : g.revealed_count + 1 ≥ g.rows * g.columns - g.mineCount) :
    revealLoopF (fuel + 1) g ((x, y) :: rest)
      = { g.setCellStatus x y CellStatus.Revealed with
            revealed_count := g.revealed_count + 1, status := GameStatus.Won } := by
  conv_lhs => rw [revealLoopF]
  rw [if_pos hb, if_neg (not_not_intro hcov), if_neg hmine, if_pos hwin]

theorem revealLoopF_succ_zero (fuel : Nat) (g : Game) (x y : Nat) (rest : List (Nat × Nat))
    (hb : x < g.board.length ∧ y < (g.board.getD x []).length)
    (hcov : (g.getCell x y).status = CellStatus.Covered)
    (hmine : ¬((g.setCellStatus x y CellStatus.Revealed).getCell x y).value = CellValue.Mined)
    (hwin : ¬g.revealed_count + 1 ≥ g.rows * g.columns - g.mineCount)
    (hzero : ((g.setCellStatus x y CellStatus.Revealed).getCell x y).value = CellValue.Number 0) :
    revealLoopF (fuel + 1) g ((x, y) :: rest)
      = revealLoopF fuel
          { g.setCellStatus x y CellStatus.Revealed with revealed_count := g.revealed_count + 1 }
          (((surroundingCells g.columns g.rows x y).filter
            (fun q => decide (((g.setCellStatus x y CellStatus.Revealed).getCell q.1 q.2).status
              = CellStatus.Covered))).reverse ++ rest) := by
  conv_lhs => rw [revealLoopF]
  rw [if_pos hb, if_neg (not_not_intro hcov), if_neg hmine, if_neg hwin, if_pos hzero]

theorem revealLoopF_succ_num (fuel : Nat) (g : Game) (x y : Nat) (rest : List (Nat × Nat))
    (hb : x < g.board.length ∧ y < (g.board.getD x []).length)
    (hcov : (g.getCell x y).status = CellStatus.Covered)
    (hmine : ¬((g.setCellStatus x y CellStatus.Revealed).getCell x y).value = CellValue.Mined)
    (hwin : ¬g.revealed_count + 1 ≥ g.rows * g.columns - g.mineCount)
    (hzero : ¬((g.setCellStatus x y CellStatus.Revealed).getCell x y).value = CellValue.Number 0) :
    revealLoopF (fuel + 1) g ((x, y) :: rest)
      = revealLoopF fuel
          { g.setCellStatus x y CellStatus.Revealed with revealed_count := g.revealed_count + 1 }
          rest := by
  conv_lhs => rw [revealLoopF]
  rw [if_pos hb, if_neg (not_not_intro hcov), if_neg hmine, if_neg hwin, if_neg hzero]

/-- Revealing a covered, in-grid cell lowers the covered-cell count by one. -/
theorem covered_decrease (g : Game) (x y : Nat)
    (hb : x < g.board.length ∧ y < (g.board.getD x []).length)
    (hcov : (g.getCell x y).status = CellStatus.Covered) :
    boardCountP (boardSet g.board x y (fun c => { c with status := CellStatus.Revealed })) coveredP + 1
      = boardCountP g.board coveredP := by
  have h := boardCountP_boardSet g.board x y
    (fun c => { c with status := CellStatus.Revealed }) coveredP hb.1 hb.2
  unfold Game.getCell at hcov
  simp [coveredP, hcov] at h
  omega

theorem filter_surrounding_le_eight (g : Game) (x y : Nat) (p : Nat × Nat → Bool) :
    ((surroundingCells g.columns g.rows x y).filter p).length ≤ 8 := by
  have h1 : ((surroundingCells g.columns g.rows x y).filter p).length
      ≤ (surroundingCells g.columns g.rows x y).length := List.length_filter_le _ _
  have h2 : (surroundingCells g.columns g.rows x y).length ≤ 8 := by
    unfold surroundingCells
    simp only [List.length_append]
    have hl : ∀ (c : Bool) (a : Nat × Nat), (if c = true then [a] else []).length ≤ 1 := by
      intro c a
      cases c <;> simp
    split_ifs <;> simp
  omega

theorem setCellStatus_board (g : Game) (x y : Nat) (s : CellStatus) :
    (g.setCellStatus x y s).board = boardSet g.board x y (fun c => { c with status := s }) := rfl

theorem setCellValue_board (g : Game) (x y : Nat) (v : CellValue) :
    (g.setCellValue x y v).board = boardSet g.board x y (fun c => { c with value := v }) := rfl

theorem revealLoopF_fuel_irrelevant :
    ∀ f1 f2 g stack, revealFuel g stack < f1 → revealFuel g stack < f2 →
      revealLoopF f1 g stack = revealLoopF f2 g stack := by
  intro f1
  induction f1 with
  | zero => intro f2 g stack h1 _; exact absurd h1 (Nat.not_lt_zero _)
  | succ n ih =>
    intro f2 g stack h1 h2
    match stack with
    | [] => rw [revealLoopF_nil, revealLoopF_nil]
    | (x, y) :: rest =>
      match f2 with
      | 0 => exact absurd h2 (Nat.not_lt_zero _)
      | m + 1 =>
        have hlen : revealFuel g ((x, y) :: rest) = revealFuel g rest + 1 := by
          unfold revealFuel
          simp only [List.length_cons]
          omega
        by_cases hb : x < g.board.length ∧ y < (g.board.getD x []).length
        · by_cases hcov : (g.getCell x y).status = CellStatus.Covered
          · by_cases hmine :
                ((g.setCellStatus x y CellStatus.Revealed).getCell x y).value = CellValue.Mined
            · rw [revealLoopF_succ_mine n g x y rest hb hcov hmine,
                revealLoopF_succ_mine m g x y rest hb hcov hmine]
            · by_cases hwin : g.revealed_count + 1 ≥ g.rows * g.columns - g.mineCount
              · rw [revealLoopF_succ_won n g x y rest hb hcov hmine hwin,
                  revealLoopF_succ_won m g x y rest hb hcov hmine hwin]
              · have hcd := covered_decrease g x y hb hcov
                by_cases hzero :
                    ((g.setCellStatus x y CellStatus.Revealed).getCell x y).value
                      = CellValue.Number 0
                · rw [revealLoopF_succ_zero n g x y rest hb hcov hmine hwin hzero,
                    revealLoopF_succ_zero m g x y rest hb hcov hmine hwin hzero]
                  have hf := filter_surrounding_le_eight g x y
                    (fun q => decide (((g.setCellStatus x y CellStatus.Revealed).getCell q.1 q.2).status
                      = CellStatus.Covered))
                  apply ih
                  · unfold revealFuel at h1 ⊢
                    simp only [List.length_append, List.length_reverse, List.length_cons,
                      setCellStatus_board] at h1 ⊢
                    omega
                  · unfold revealFuel at h2 ⊢
                    simp only [List.length_append, List.length_reverse, List.length_cons,
                      setCellStatus_board] at h2 ⊢
                    omega
                · rw [revealLoopF_succ_num n g x y rest hb hcov hmine hwin hzero,
                    revealLoopF_succ_num m g x y rest hb hcov hmine hwin hzero]
                  apply ih
                  · unfold revealFuel at h1 ⊢
                    simp only [List.length_cons, setCellStatus_board] at h1 ⊢
                    omega
                  · unfold revealFuel at h2 ⊢
                    simp only [List.length_cons, setCellStatus_board] at h2 ⊢
                    omega
          · rw [revealLoopF_succ_skip n g x y rest hb hcov,
              revealLoopF_succ_skip m g x y rest hb hcov]
            exact ih m g rest (by omega) (by omega)
        · rw [revealLoopF_succ_oob n g x y rest hb, revealLoopF_succ_oob m g x y rest hb]
          exact ih m g rest (by omega) (by omega)

theorem revealLoop_nil (g : Game) : revealLoop g [] = g := revealLoopF_nil _ _

theorem revealLoop_eq_f (fuel : Nat) (g : Game) (stack : List (Nat × Nat))
    (h : revealFuel g stack < fuel) : revealLoop g stack = revealLoopF fuel g stack :=
  revealLoopF_fuel_irrelevant (revealFuel g stack + 1) fuel g stack (Nat.lt_succ_self _) h

/-- The canonical runner satisfies the source loop's one-step recurrence:
the fuel threaded through `revealLoopF` is always sufficient. -/
theorem revealLoop_unfold (g : Game) (x y : Nat) (rest : List (Nat × Nat)) :
    revealLoop g ((x, y) :: rest) =
      if x < g.board.length ∧ y < (g.board.getD x []).length then
        if (g.getCell x y).status ≠ CellStatus.Covered then
          revealLoop g rest
        else if ((g.setCellStatus x y CellStatus.Revealed).getCell x y).value = CellValue.Mined then
          { (g.setCellStatus x y CellStatus.Revealed).setCellStatus x y CellStatus.Revealed
              with status := GameStatus.Lost }
        else if g.revealed_count + 1 ≥ g.rows * g.columns - g.mineCount then
          { g.setCellStatus x y CellStatus.Revealed with
              revealed_count := g.revealed_count + 1, status := GameStatus.Won }
        else if ((g.setCellStatus x y CellStatus.Revealed).getCell x y).value = CellValue.Number 0 then
          revealLoop
            { g.setCellStatus x y CellStatus.Revealed with revealed_count := g.revealed_count + 1 }
            (((surroundingCells g.columns g.rows x y).filter
              (fun q => decide (((g.setCellStatus x y CellStatus.Revealed).getCell q.1 q.2).status
                = CellStatus.Covered))).reverse ++ rest)
        else
          revealLoop
            { g.setCellStatus x y CellStatus.Revealed with revealed_count := g.revealed_count + 1 }
            rest
      else revealLoop g rest := by
  have hlen : revealFuel g ((x, y) :: rest) = revealFuel g rest + 1 := by
    unfold revealFuel
    simp only [List.length_cons]
    omega
  show revealLoopF (revealFuel g ((x, y) :: rest) + 1) g ((x, y) :: rest) = _
  by_cases hb : x < g.board.length ∧ y < (g.board.getD x []).length
  · by_cases hcov : (g.getCell x y).status = CellStatus.Covered
    · by_cases hmine :
          ((g.setCellStatus x y CellStatus.Revealed).getCell x y).value = CellValue.Mined
      · rw [revealLoopF_succ_mine _ g x y rest hb hcov hmine, if_pos hb,
          if_neg (not_not_intro hcov), if_pos hmine]
      · by_cases hwin : g.revealed_count + 1 ≥ g.rows * g.columns - g.mineCount
        · rw [revealLoopF_succ_won _ g x y rest hb hcov hmine hwin, if_pos hb,
            if_neg (not_not_intro hcov), if_neg hmine, if_pos hwin]
        · have hcd := covered_decrease g x y hb hcov
          by_cases hzero :
              ((g.setCellStatus x y CellStatus.Revealed).getCell x y).value = CellValue.Number 0
          · rw [revealLoopF_succ_zero _ g x y rest hb hcov hmine hwin hzero, if_pos hb,
              if_neg (not_not_intro hcov), if_neg hmine, if_neg hwin, if_pos hzero]
            have hf := filter_surrounding_le_eight g x y
              (fun q => decide (((g.setCellStatus x y CellStatus.Revealed).getCell q.1 q.2).status
                = CellStatus.Covered))
            refine (revealLoop_eq_f _ _ _ ?_).symm
            unfold revealFuel at hlen ⊢
            simp only [List.length_append, List.length_reverse, List.length_cons,
              setCellStatus_board] at hlen ⊢
            omega
          · rw [revealLoopF_succ_num _ g x y rest hb hcov hmine hwin hzero, if_pos hb,
              if_neg (not_not_intro hcov), if_neg hmine, if_neg hwin, if_neg hzero]
            refine (revealLoop_eq_f _ _ _ ?_).symm
            unfold revealFuel at hlen ⊢
            simp only [List.length_cons, setCellStatus_board] at hlen ⊢
            omega
    · rw [revealLoopF_succ_skip _ g x y rest hb hcov, if_pos hb, if_pos hcov]
      exact (revealLoop_eq_f _ _ _ (by omega)).symm
  · rw [revealLoopF_succ_oob _ g x y rest hb, if_neg hb]
    exact (revealLoop_eq_f _ _ _ (by omega)).symm

/-! ### Simulation facts about the reveal loop -/

/-- What one whole run of the reveal worklist does to a game: dimensions,
flag data and non-status cell data are untouched, `revealed_count` moves in
lockstep with the number of revealed non-mine cells, the status is kept or
ends terminal, and a cell can only move from `Covered` to `Revealed`. -/
structure StepOk (g r : Game) : Prop where
  rows_eq : r.rows = g.rows
  columns_eq : r.columns = g.columns
  mineCount_eq : r.mineCount = g.mineCount
  flag_eq : r.flag_count = g.flag_count
  len_eq : r.board.length = g.board.length
  col_len_eq : ∀ i, (r.board.getD i []).length = (g.board.getD i []).length
  flagged_eq : flaggedCount r = flaggedCount g
  revealed_bal : r.revealed_count + safeRevealedCells g = g.revealed_count + safeRevealedCells r
  status_range : r.status = g.status ∨ r.status = GameStatus.Lost ∨ r.status = GameStatus.Won
  cells : ∀ x y, r.getCell x y = g.getCell x y ∨
    ((g.getCell x y).status = CellStatus.Covered ∧
      r.getCell x y = { g.getCell x y with status := CellStatus.Revealed })

theorem stepOk_refl (g : Game) : StepOk g g :=
  ⟨rfl, rfl, rfl, rfl, rfl, fun _ => rfl, rfl, rfl, Or.inl rfl, fun _ _ => Or.inl rfl⟩

theorem stepOk_trans {g1 g2 g3 : Game} (a : StepOk g1 g2) (b : StepOk g2 g3) : StepOk g1 g3 := by
  refine ⟨?_, ?_, ?_, ?_, ?_, ?_, ?_, ?_, ?_, ?_⟩
  · rw [b.rows_eq, a.rows_eq]
  · rw [b.columns_eq, a.columns_eq]
  · rw [b.mineCount_eq, a.mineCount_eq]
  · rw [b.flag_eq, a.flag_eq]
  · rw [b.len_eq, a.len_eq]
  · intro i
    rw [b.col_len_eq i, a.col_len_eq i]
  · rw [b.flagged_eq, a.flagged_eq]
  · have ha := a.revealed_bal
    have hb := b.revealed_bal
    omega
  · rcases b.status_range with h | h | h
    · rw [h]
      exact a.status_range
    · exact Or.inr (Or.inl h)
    · exact Or.inr (Or.inr h)
  · intro x y
    rcases b.cells x y with h3 | ⟨hc3, h3⟩
    · rw [h3]
      exact a.cells x y
    · rcases a.cells x y with h2 | ⟨hc2, h2⟩
      · rw [h2] at hc3 h3
        exact Or.inr ⟨hc3, h3⟩
      · rw [h2] at hc3
        exact absurd hc3 (by simp)

theorem StepOk.withTerminal {g r : Game} (a : StepOk g r) (t : GameStatus)
    (ht : t = GameStatus.Lost ∨ t = GameStatus.Won) : StepOk g (r.withStatus t) := by
  refine ⟨a.rows_eq, a.columns_eq, a.mineCount_eq, a.flag_eq, a.len_eq, a.col_len_eq,
    a.flagged_eq, a.revealed_bal, ?_, a.cells⟩
  rcases ht with h | h
  · exact Or.inr (Or.inl h)
  · exact Or.inr (Or.inr h)

/-- Revealing a mined covered cell (the loop's loss branch) is a `StepOk`. -/
theorem stepOk_mined_result (g : Game) (x y : Nat)
    (hb : x < g.board.length ∧ y < (g.board.getD x []).length)
    (hcov : (g.getCell x y).status = CellStatus.Covered)
    (hmine : (g.getCell x y).value = CellValue.Mined) :
    StepOk g { (g.setCellStatus x y CellStatus.Revealed).setCellStatus x y CellStatus.Revealed
        with status := GameStatus.Lost } := by
  unfold Game.getCell at hcov hmine
  have hb2 : x < (g.setCellStatus x y CellStatus.Revealed).board.length ∧
      y < ((g.setCellStatus x y CellStatus.Revealed).board.getD x []).length := by
    rw [setCellStatus_board, boardSet_length, boardSet_col_length]
    exact hb
  have hget2 : boardGet (g.setCellStatus x y CellStatus.Revealed).board x y
      = { boardGet g.board x y with status := CellStatus.Revealed } := by
    rw [setCellStatus_board]
    exact boardGet_boardSet_self g.board x y _ hb.1 hb.2
  refine ⟨rfl, rfl, rfl, rfl, ?_, ?_, ?_, ?_, Or.inr (Or.inl rfl), ?_⟩
  · show (boardSet _ x y _).length = _
    rw [boardSet_length, setCellStatus_board, boardSet_length]
  · intro i
    show ((boardSet _ x y _).getD i []).length = _
    rw [boardSet_col_length, setCellStatus_board, boardSet_col_length]
  · show boardCountP (boardSet (g.setCellStatus x y CellStatus.Revealed).board x y
        (fun c => { c with status := CellStatus.Revealed }))
        (fun c => decide (c.status = CellStatus.Flagged))
      = boardCountP g.board (fun c => decide (c.status = CellStatus.Flagged))
    rw [boardCountP_boardSet_invariant _ _ _ _ _ (by rw [hget2])]
    rw [setCellStatus_board]
    exact boardCountP_boardSet_invariant _ _ _ _ _ (by simp [hcov])
  · show g.revealed_count + boardCountP g.board _
      = g.revealed_count + boardCountP (boardSet (g.setCellStatus x y CellStatus.Revealed).board x y
        (fun c => { c with status := CellStatus.Revealed }))
        (fun c => decide (c.status = CellStatus.Revealed ∧ c.value ≠ CellValue.Mined))
    rw [boardCountP_boardSet_invariant _ _ _ _ _ (by rw [hget2])]
    rw [setCellStatus_board]
    rw [boardCountP_boardSet_invariant _ _ _ _ _ (by simp [hcov, hmine])]
  · intro a c
    by_cases hac : a = x ∧ c = y
    · obtain ⟨rfl, rfl⟩ := hac
      refine Or.inr ⟨hcov, ?_⟩
      show boardGet (boardSet (g.setCellStatus a c CellStatus.Revealed).board a c
          (fun cc => { cc with status := CellStatus.Revealed })) a c = _
      rw [boardGet_boardSet_self _ a c _ hb2.1 hb2.2, hget2]
      rfl
    · refine Or.inl ?_
      show boardGet (boardSet (g.setCellStatus x y CellStatus.Revealed).board x y
          (fun cc => { cc with status := CellStatus.Revealed })) a c = _
      rw [boardGet_boardSet_ne _ x y a c _ hac, setCellStatus_board,
        boardGet_boardSet_ne _ x y a c _ hac]
      rfl

/-- Revealing a covered non-mined cell together with the counter bump
(the loop's normal branch) is a `StepOk`. -/
theorem stepOk_safe_base (g : Game) (x y : Nat)
    (hb : x < g.board.length ∧ y < (g.board.getD x []).length)
    (hcov : (g.getCell x y).status = CellStatus.Covered)
    (hmine : (g.getCell x y).value ≠ CellValue.Mined) :
    StepOk g { g.setCellStatus x y CellStatus.Revealed with
      revealed_count := g.revealed_count + 1 } := by
  unfold Game.getCell at hcov hmine
  refine ⟨rfl, rfl, rfl, rfl, ?_, ?_, ?_, ?_, Or.inl rfl, ?_⟩
  · show (boardSet g.board x y _).length = _
    rw [boardSet_length]
  · intro i
    show ((boardSet g.board x y _).getD i []).length = _
    rw [boardSet_col_length]
  · show boardCountP (boardSet g.board x y (fun c => { c with status := CellStatus.Revealed }))
        (fun c => decide (c.status = CellStatus.Flagged))
      = boardCountP g.board (fun c => decide (c.status = CellStatus.Flagged))
    exact boardCountP_boardSet_invariant _ _ _ _ _ (by simp [hcov])
  · show g.revealed_count + 1 + boardCountP g.board _
      = g.revealed_count + boardCountP (boardSet g.board x y
          (fun c => { c with status := CellStatus.Revealed }))
        (fun c => decide (c.status = CellStatus.Revealed ∧ c.value ≠ CellValue.Mined))
    have h := boardCountP_boardSet g.board x y (fun c => { c with status := CellStatus.Revealed })
      (fun c => decide (c.status = CellStatus.Revealed ∧ c.value ≠ CellValue.Mined)) hb.1 hb.2
    simp only [hcov, hmine, decide_eq_true_eq] at h
    rw [if_neg (by simp [hcov]), if_pos (by simp [hmine])] at h
    omega
  · intro a c
    by_cases hac : a = x ∧ c = y
    · obtain ⟨rfl, rfl⟩ := hac
      refine Or.inr ⟨hcov, ?_⟩
      show boardGet (boardSet g.board a c _) a c = _
      rw [boardGet_boardSet_self _ a c _ hb.1 hb.2]
      rfl
    · refine Or.inl ?_
      show boardGet (boardSet g.board x y _) a c = _
      rw [boardGet_boardSet_ne _ x y a c _ hac]
      rfl

/-- Master simulation lemma: a reveal worklist run is a `StepOk` for any fuel. -/
theorem revealLoopF_stepOk : ∀ (fuel : Nat) (g : Game) (stack : List (Nat × Nat)),
    StepOk g (revealLoopF fuel g stack) := by
  intro fuel
  induction fuel with
  | zero =>
    intro g stack
    cases stack with
    | nil => rw [revealLoopF_nil]; exact stepOk_refl g
    | cons hd tl => exact stepOk_refl g
  | succ n ih =>
    intro g stack
    match stack with
    | [] => rw [revealLoopF_nil]; exact stepOk_refl g
    | (x, y) :: rest =>
      by_cases hb : x < g.board.length ∧ y < (g.board.getD x []).length
      · by_cases hcov : (g.getCell x y).status = CellStatus.Covered
        · have hval := getCell_setCellStatus_value g x y x y CellStatus.Revealed
          by_cases hmine :
              ((g.setCellStatus x y CellStatus.Revealed).getCell x y).value = CellValue.Mined
          · rw [revealLoopF_succ_mine n g x y rest hb hcov hmine]
            exact stepOk_mined_result g x y hb hcov (hval.symm.trans hmine)
          · have hnm : (g.getCell x y).value ≠ CellValue.Mined :=
              fun hm => hmine (hval.trans hm)
            by_cases hwin : g.revealed_count + 1 ≥ g.rows * g.columns - g.mineCount
            · rw [revealLoopF_succ_won n g x y rest hb hcov hmine hwin]
              exact (stepOk_safe_base g x y hb hcov hnm).withTerminal GameStatus.Won (Or.inr rfl)
            · by_cases hzero :
                  ((g.setCellStatus x y CellStatus.Revealed).getCell x y).value
                    = CellValue.Number 0
              · rw [revealLoopF_succ_zero n g x y rest hb hcov hmine hwin hzero]
                exact stepOk_trans (stepOk_safe_base g x y hb hcov hnm) (ih _ _)
              · rw [revealLoopF_succ_num n g x y rest hb hcov hmine hwin hzero]
                exact stepOk_trans (stepOk_safe_base g x y hb hcov hnm) (ih _ _)
        · rw [revealLoopF_succ_skip n g x y rest hb hcov]
          exact ih g rest
      · rw [revealLoopF_succ_oob n g x y rest hb]
        exact ih g rest

theorem revealLoop_stepOk (g : Game) (stack : List (Nat × Nat)) :
    StepOk g (revealLoop g stack) :=
  revealLoopF_stepOk _ _ _

theorem reveal_multiple_stepOk (g : Game) (x y : Nat) : StepOk g (g.reveal_multiple x y) :=
  revealLoopF_stepOk _ _ _

theorem chordFold_stepOk : ∀ (l : List (Nat × Nat)) (g : Game),
    StepOk g (l.foldl chordStep g) := by
  intro l
  induction l with
  | nil => intro g; exact stepOk_refl g
  | cons q tl ih =>
    intro g
    show StepOk g (tl.foldl chordStep (chordStep g q))
    refine stepOk_trans ?_ (ih _)
    unfold chordStep
    split
    · exact reveal_multiple_stepOk g q.1 q.2
    · exact stepOk_refl g

theorem reveal_special_stepOk (g : Game) (x y : Nat) : StepOk g (g.reveal_special x y) := by
  unfold Game.reveal_special
  by_cases h1 : (g.getCell x y).status ≠ CellStatus.Revealed
  · rw [if_pos h1]
    exact stepOk_refl g
  · rw [if_neg h1]
    cases hv : (g.getCell x y).value with
    | Mined => simp only [hv]; exact stepOk_refl g
    | Number k =>
      simp only [hv]
      by_cases h2 : flaggedAdj g x y = k
      · rw [if_pos h2]
        exact chordFold_stepOk _ g
      · rw [if_neg h2]
        exact stepOk_refl g

/-! ### The reveal and chord operations never read the status field -/

theorem pressLike_withStatus (g : Game) (s : GameStatus) :
    pressLike (g.withStatus GameStatus.Playing) s = g.withStatus s := by
  unfold pressLike
  rw [if_pos (withStatus_status g GameStatus.Playing)]
  rfl

theorem flaggedAdj_withStatus (g : Game) (s : GameStatus) (x y : Nat) :
    flaggedAdj (g.withStatus s) x y = flaggedAdj g x y := rfl

/-- A worklist run from a game with overridden status: the run is the same
as from status `Playing`, with the input status showing through whenever the
run did not end the game. -/
theorem revealLoopF_withStatus : ∀ (fuel : Nat) (g : Game) (stack : List (Nat × Nat))
    (s : GameStatus),
    revealLoopF fuel (g.withStatus s) stack
      = pressLike (revealLoopF fuel (g.withStatus GameStatus.Playing) stack) s := by
  intro fuel
  induction fuel with
  | zero =>
    intro g stack s
    cases stack with
    | nil =>
      rw [revealLoopF_nil, revealLoopF_nil]
      exact (pressLike_withStatus g s).symm
    | cons hd tl =>
      show g.withStatus s = pressLike (g.withStatus GameStatus.Playing) s
      exact (pressLike_withStatus g s).symm
  | succ n ih =>
    intro g stack s
    match stack with
    | [] =>
      rw [revealLoopF_nil, revealLoopF_nil]
      exact (pressLike_withStatus g s).symm
    | (x, y) :: rest =>
      by_cases hb : x < g.board.length ∧ y < (g.board.getD x []).length
      · by_cases hcov : (g.getCell x y).status = CellStatus.Covered
        · by_cases hmine :
              ((g.setCellStatus x y CellStatus.Revealed).getCell x y).value = CellValue.Mined
          · rw [revealLoopF_succ_mine n (g.withStatus s) x y rest hb hcov hmine,
              revealLoopF_succ_mine n (g.withStatus GameStatus.Playing) x y rest hb hcov hmine]
            rfl
          · by_cases hwin : g.revealed_count + 1 ≥ g.rows * g.columns - g.mineCount
            · rw [revealLoopF_succ_won n (g.withStatus s) x y rest hb hcov hmine hwin,
                revealLoopF_succ_won n (g.withStatus GameStatus.Playing) x y rest hb hcov hmine hwin]
              rfl
            · by_cases hzero :
                  ((g.setCellStatus x y CellStatus.Revealed).getCell x y).value
                    = CellValue.Number 0
              · rw [revealLoopF_succ_zero n (g.withStatus s) x y rest hb hcov hmine hwin hzero,
                  revealLoopF_succ_zero n (g.withStatus GameStatus.Playing) x y rest hb hcov hmine
                    hwin hzero]
                exact ih { g.setCellStatus x y CellStatus.Revealed with
                    revealed_count := g.revealed_count + 1 }
                  (((surroundingCells g.columns g.rows x y).filter
                    (fun q => decide (((g.setCellStatus x y CellStatus.Revealed).getCell q.1 q.2).status
                      = CellStatus.Covered))).reverse ++ rest) s
              · rw [revealLoopF_succ_num n (g.withStatus s) x y rest hb hcov hmine hwin hzero,
                  revealLoopF_succ_num n (g.withStatus GameStatus.Playing) x y rest hb hcov hmine
                    hwin hzero]
                exact ih { g.setCellStatus x y CellStatus.Revealed with
                    revealed_count := g.revealed_count + 1 } rest s
        · rw [revealLoopF_succ_skip n (g.withStatus s) x y rest hb hcov,
            revealLoopF_succ_skip n (g.withStatus GameStatus.Playing) x y rest hb hcov]
          exact ih g rest s
      · rw [revealLoopF_succ_oob n (g.withStatus s) x y rest hb,
          revealLoopF_succ_oob n (g.withStatus GameStatus.Playing) x y rest hb]
        exact ih g rest s

theorem reveal_multiple_withStatus (g : Game) (x y : Nat) (s : GameStatus) :
    (g.withStatus s).reveal_multiple x y
      = pressLike ((g.withStatus GameStatus.Playing).reveal_multiple x y) s :=
  revealLoopF_withStatus (revealFuel (g.withStatus s) [(x, y)] + 1) g [(x, y)] s

theorem withStatus_eq_self (g : Game) (s : GameStatus) (h : g.status = s) :
    g.withStatus s = g := by
  rw [← h]
  exact withStatus_self g

theorem chordStep_withStatus (g : Game) (q : Nat × Nat) (s : GameStatus) :
    chordStep (g.withStatus s) q = pressLike (chordStep (g.withStatus GameStatus.Playing) q) s := by
  unfold chordStep
  simp only [withStatus_getCell]
  by_cases hc : (g.getCell q.1 q.2).status = CellStatus.Covered
  · rw [if_pos hc, if_pos hc]
    exact reveal_multiple_withStatus g q.1 q.2 s
  · rw [if_neg hc, if_neg hc]
    exact (pressLike_withStatus g s).symm

theorem chordFold_withStatus : ∀ (l : List (Nat × Nat)) (g : Game) (s : GameStatus),
    l.foldl chordStep (g.withStatus s)
      = pressLike (l.foldl chordStep (g.withStatus GameStatus.Playing)) s := by
  intro l
  induction l with
  | nil =>
    intro g s
    simp only [List.foldl_nil]
    exact (pressLike_withStatus g s).symm
  | cons q tl ih =>
    intro g s
    simp only [List.foldl_cons]
    rw [chordStep_withStatus g q s]
    by_cases hs1 : (chordStep (g.withStatus GameStatus.Playing) q).status = GameStatus.Playing
    · rw [show pressLike (chordStep (g.withStatus GameStatus.Playing) q) s
          = (chordStep (g.withStatus GameStatus.Playing) q).withStatus s from by
        unfold pressLike
        rw [if_pos hs1]
        rfl]
      have hih := ih (chordStep (g.withStatus GameStatus.Playing) q) s
      rw [withStatus_eq_self _ _ hs1] at hih
      exact hih
    · rw [show pressLike (chordStep (g.withStatus GameStatus.Playing) q) s
          = chordStep (g.withStatus GameStatus.Playing) q from by
        unfold pressLike
        rw [if_neg hs1]]
      have hr := (chordFold_stepOk tl (chordStep (g.withStatus GameStatus.Playing) q)).status_range
      have hstat : (tl.foldl chordStep (chordStep (g.withStatus GameStatus.Playing) q)).status
          ≠ GameStatus.Playing := by
        rcases hr with h | h | h
        · rw [h]; exact hs1
        · rw [h]; simp
        · rw [h]; simp
      rw [show pressLike (tl.foldl chordStep (chordStep (g.withStatus GameStatus.Playing) q)) s
          = tl.foldl chordStep (chordStep (g.withStatus GameStatus.Playing) q) from by
        unfold pressLike
        rw [if_neg hstat]]

theorem reveal_special_withStatus (g : Game) (x y : Nat) (s : GameStatus) :
    (g.withStatus s).reveal_special x y
      = pressLike ((g.withStatus GameStatus.Playing).reveal_special x y) s := by
  unfold Game.reveal_special
  simp only [withStatus_getCell, withStatus_columns, withStatus_rows, flaggedAdj_withStatus]
  by_cases h1 : (g.getCell x y).status ≠ CellStatus.Revealed
  · rw [if_pos h1, if_pos h1]
    exact (pressLike_withStatus g s).symm
  · rw [if_neg h1, if_neg h1]
    cases hv : (g.getCell x y).value with
    | Mined =>
      simp only [hv]
      exact (pressLike_withStatus g s).symm
    | Number k =>
      simp only [hv]
      by_cases h2 : flaggedAdj g x y = k
      · rw [if_pos h2, if_pos h2]
        exact chordFold_withStatus _ g s
      · rw [if_neg h2, if_neg h2]
        exact (pressLike_withStatus g s).symm

/-! ### Neighbor enumeration stays on the grid -/

theorem mem_ite_singleton {α : Type} {c : Prop} [Decidable c] {p a : α} :
    p ∈ (if c then [a] else []) ↔ c ∧ p = a := by
  split <;> simp_all

theorem surroundingCells_length_le (columns rows x y : Nat) :
    (surroundingCells columns rows x y).length ≤ 8 := by
  unfold surroundingCells
  simp only [List.length_append]
  split_ifs <;> simp

theorem surroundingCells_spec (columns rows x y : Nat) (hx : x < columns) (hy : y < rows) :
    ∀ p ∈ surroundingCells columns rows x y,
      p.1 < columns ∧ p.2 < rows ∧ p ≠ (x, y) ∧
      (p.1 = x ∨ p.1 = x + 1 ∨ p.1 + 1 = x) ∧ (p.2 = y ∨ p.2 = y + 1 ∨ p.2 + 1 = y) := by
  intro p hp
  obtain ⟨px, py⟩ := p
  unfold surroundingCells at hp
  simp only [List.mem_append, mem_ite_singleton, Bool.and_eq_true, Bool.not_eq_true',
    beq_eq_false_iff_ne, ne_eq, Prod.mk.injEq, or_assoc] at hp
  rcases hp with ⟨hc, h1, h2⟩ | ⟨hc, h1, h2⟩ | ⟨hc, h1, h2⟩ | ⟨hc, h1, h2⟩ | ⟨hc, h1, h2⟩ |
    ⟨hc, h1, h2⟩ | ⟨hc, h1, h2⟩ | ⟨hc, h1, h2⟩ <;>
  · subst h1
    subst h2
    refine ⟨by omega, by omega, ?_, by omega, by omega⟩
    simp only [ne_eq, Prod.mk.injEq]
    omega

/-! ### Correct numbers make reveal safe -/

theorem numbersCorrect_of_values (g r : Game) (hc : r.columns = g.columns)
    (hr : r.rows = g.rows) (hv : ∀ a b, (r.getCell a b).value = (g.getCell a b).value)
    (hn : NumbersCorrect g) : NumbersCorrect r := by
  intro x hx y hy hnm
  rw [hc] at hx
  rw [hr] at hy
  have hadj : mineAdj r x y = mineAdj g x y := by
    unfold mineAdj
    rw [hc, hr]
    refine List.countP_congr ?_
    intro q _
    simp [hv q.1 q.2]
  rw [hv x y] at hnm ⊢
  rw [hadj]
  exact hn x hx y hy hnm

theorem mineAdj_zero_no_mined_neighbor (g : Game) (x y : Nat)
    (h : mineAdj g x y = 0) :
    ∀ q ∈ surroundingCells g.columns g.rows x y, (g.getCell q.1 q.2).value ≠ CellValue.Mined := by
  unfold mineAdj at h
  rw [List.countP_eq_zero] at h
  intro q hq hmv
  have := h q hq
  simp [hmv] at this

/-- If all adjacency numbers are correct, a worklist of in-grid non-mined
cells never loses the game and never touches a mined cell. -/
theorem revealLoopF_safe : ∀ (fuel : Nat) (g : Game) (stack : List (Nat × Nat)),
    BoardShape g → NumbersCorrect g →
    (∀ p ∈ stack, p.1 < g.columns ∧ p.2 < g.rows ∧ (g.getCell p.1 p.2).value ≠ CellValue.Mined) →
    ((revealLoopF fuel g stack).status = GameStatus.Lost → g.status = GameStatus.Lost) ∧
    (∀ a b, (g.getCell a b).value = CellValue.Mined →
      (revealLoopF fuel g stack).getCell a b = g.getCell a b) := by
  intro fuel
  induction fuel with
  | zero =>
    intro g stack _ _ _
    cases stack with
    | nil => exact ⟨fun h => h, fun _ _ _ => rfl⟩
    | cons hd tl => exact ⟨fun h => h, fun _ _ _ => rfl⟩
  | succ n ih =>
    intro g stack hshape hnum hstack
    match stack with
    | [] => exact ⟨fun h => h, fun _ _ _ => rfl⟩
    | (x, y) :: rest =>
      obtain ⟨hx, hy, hnm⟩ := hstack (x, y) (List.mem_cons_self _ _)
      have hb : x < g.board.length ∧ y < (g.board.getD x []).length :=
        (boardShape_bounds g hshape x y).mpr ⟨hx, hy⟩
      have hrest : ∀ p ∈ rest, p.1 < g.columns ∧ p.2 < g.rows ∧
          (g.getCell p.1 p.2).value ≠ CellValue.Mined :=
        fun p hp => hstack p (List.mem_cons_of_mem _ hp)
      by_cases hcov : (g.getCell x y).status = CellStatus.Covered
      · have hmineF : ¬((g.setCellStatus x y CellStatus.Revealed).getCell x y).value
            = CellValue.Mined := by
          rw [getCell_setCellStatus_value]
          exact hnm
        have hg2val : ∀ a b,
            (({ g.setCellStatus x y CellStatus.Revealed with
                revealed_count := g.revealed_count + 1 } : Game).getCell a b).value
              = (g.getCell a b).value :=
          fun a b => getCell_setCellStatus_value g x y a b CellStatus.Revealed
        have hg2shape : BoardShape { g.setCellStatus x y CellStatus.Revealed with
            revealed_count := g.revealed_count + 1 } :=
          boardShape_setCellStatus g x y CellStatus.Revealed hshape
        have hg2num : NumbersCorrect { g.setCellStatus x y CellStatus.Revealed with
            revealed_count := g.revealed_count + 1 } :=
          numbersCorrect_of_values g _ rfl rfl hg2val hnum
        have hg2cell : ∀ a b, (g.getCell a b).value = CellValue.Mined →
            (({ g.setCellStatus x y CellStatus.Revealed with
                revealed_count := g.revealed_count + 1 } : Game).getCell a b)
              = g.getCell a b := by
          intro a b hmv
          have hne : ¬(a = x ∧ b = y) := by
            rintro ⟨rfl, rfl⟩
            exact hnm hmv
          exact getCell_setCellStatus_ne g x y a b CellStatus.Revealed hne
        by_cases hwin : g.revealed_count + 1 ≥ g.rows * g.columns - g.mineCount
        · rw [revealLoopF_succ_won n g x y rest hb hcov hmineF hwin]
          refine ⟨fun h => by simp at h, ?_⟩
          intro a b hmv
          have hne : ¬(a = x ∧ b = y) := by
            rintro ⟨rfl, rfl⟩
            exact hnm hmv
          exact getCell_setCellStatus_ne g x y a b CellStatus.Revealed hne
        · by_cases hzero :
              ((g.setCellStatus x y CellStatus.Revealed).getCell x y).value = CellValue.Number 0
          · rw [revealLoopF_succ_zero n g x y rest hb hcov hmineF hwin hzero]
            have hadj0 : mineAdj g x y = 0 := by
              rw [getCell_setCellStatus_value] at hzero
              have := hnum x hx y hy hnm
              rw [hzero] at this
              injection this.symm
            have hnomine := mineAdj_zero_no_mined_neighbor g x y hadj0
            have hstack2 : ∀ p ∈ (((surroundingCells g.columns g.rows x y).filter
                  (fun q => decide (((g.setCellStatus x y CellStatus.Revealed).getCell q.1 q.2).status
                    = CellStatus.Covered))).reverse ++ rest),
                p.1 < g.columns ∧ p.2 < g.rows ∧
                (({ g.setCellStatus x y CellStatus.Revealed with
                    revealed_count := g.revealed_count + 1 } : Game).getCell p.1 p.2).value
                  ≠ CellValue.Mined := by
              intro p hp
              rw [List.mem_append, List.mem_reverse] at hp
              rcases hp with hp | hp
              · rw [List.mem_filter] at hp
                obtain ⟨hmem, _⟩ := hp
                have hspec := surroundingCells_spec g.columns g.rows x y hx hy p hmem
                refine ⟨hspec.1, hspec.2.1, ?_⟩
                rw [hg2val]
                exact hnomine p hmem
              · obtain ⟨h1, h2, h3⟩ := hrest p hp
                refine ⟨h1, h2, ?_⟩
                rw [hg2val]
                exact h3
            obtain ⟨ihs, ihc⟩ := ih _ _ hg2shape hg2num hstack2
            refine ⟨fun h => ihs h, ?_⟩
            intro a b hmv
            have h2 := hg2cell a b hmv
            rw [ihc a b (by rw [hg2val]; exact hmv), h2]
          · rw [revealLoopF_succ_num n g x y rest hb hcov hmineF hwin hzero]
            have hstack2 : ∀ p ∈ rest, p.1 < g.columns ∧ p.2 < g.rows ∧
                (({ g.setCellStatus x y CellStatus.Revealed with
                    revealed_count := g.revealed_count + 1 } : Game).getCell p.1 p.2).value
                  ≠ CellValue.Mined := by
              intro p hp
              obtain ⟨h1, h2, h3⟩ := hrest p hp
              refine ⟨h1, h2, ?_⟩
              rw [hg2val]
              exact h3
            obtain ⟨ihs, ihc⟩ := ih _ _ hg2shape hg2num hstack2
            refine ⟨fun h => ihs h, ?_⟩
            intro a b hmv
            have h2 := hg2cell a b hmv
            rw [ihc a b (by rw [hg2val]; exact hmv), h2]
      · rw [revealLoopF_succ_skip n g x y rest hb hcov]
        exact ih g rest hshape hnum hrest

/-! ### Generation: mines and numbers -/

/-- What `add_mines`/`add_numbers` steps do: only cell values change. -/
structure ValueStep (g r : Game) : Prop where
  rows_eq : r.rows = g.rows
  columns_eq : r.columns = g.columns
  mineCount_eq : r.mineCount = g.mineCount
  status_eq : r.status = g.status
  revealed_eq : r.revealed_count = g.revealed_count
  flag_eq : r.flag_count = g.flag_count
  len_eq : r.board.length = g.board.length
  col_len_eq : ∀ i, (r.board.getD i []).length = (g.board.getD i []).length
  cell_status : ∀ a b, (r.getCell a b).status = (g.getCell a b).status

theorem valueStep_refl (g : Game) : ValueStep g g :=
  ⟨rfl, rfl, rfl, rfl, rfl, rfl, rfl, fun _ => rfl, fun _ _ => rfl⟩

theorem valueStep_trans {g1 g2 g3 : Game} (a : ValueStep g1 g2) (b : ValueStep g2 g3) :
    ValueStep g1 g3 := by
  refine ⟨?_, ?_, ?_, ?_, ?_, ?_, ?_, ?_, ?_⟩
  · rw [b.rows_eq, a.rows_eq]
  · rw [b.columns_eq, a.columns_eq]
  · rw [b.mineCount_eq, a.mineCount_eq]
  · rw [b.status_eq, a.status_eq]
  · rw [b.revealed_eq, a.revealed_eq]
  · rw [b.flag_eq, a.flag_eq]
  · rw [b.len_eq, a.len_eq]
  · intro i
    rw [b.col_len_eq i, a.col_len_eq i]
  · intro x y
    rw [b.cell_status x y, a.cell_status x y]

theorem valueStep_setCellValue (g : Game) (x y : Nat) (v : CellValue) :
    ValueStep g (g.setCellValue x y v) := by
  refine ⟨rfl, rfl, rfl, rfl, rfl, rfl, ?_, ?_, ?_⟩
  · show (boardSet g.board x y _).length = _
    rw [boardSet_length]
  · intro i
    show ((boardSet g.board x y _).getD i []).length = _
    rw [boardSet_col_length]
  · intro a b
    exact getCell_setCellValue_status g x y a b v

theorem valueStep_numberStep (g : Game) (p : Nat × Nat) : ValueStep g (numberStep g p) := by
  unfold numberStep
  split
  · exact valueStep_refl g
  · exact valueStep_setCellValue g p.1 p.2 _

theorem valueStep_add_mines (g : Game) (shuffled : List (Nat × Nat)) :
    ValueStep g (g.add_mines shuffled) := by
  unfold Game.add_mines
  generalize shuffled.take g.mineCount = ps
  induction ps generalizing g with
  | nil => exact valueStep_refl g
  | cons q tl ih =>
    simp only [List.foldl_cons]
    exact valueStep_trans (valueStep_setCellValue g q.1 q.2 CellValue.Mined) (ih _)

theorem valueStep_fold_numberStep : ∀ (ps : List (Nat × Nat)) (g : Game),
    ValueStep g (ps.foldl numberStep g) := by
  intro ps
  induction ps with
  | nil => exact fun g => valueStep_refl g
  | cons q tl ih =>
    intro g
    simp only [List.foldl_cons]
    exact valueStep_trans (valueStep_numberStep g q) (ih _)

theorem valueStep_add_numbers (g : Game) : ValueStep g g.add_numbers :=
  valueStep_fold_numberStep _ g

theorem valueStep_new (rows columns mineCount : Nat) (shuffled : List (Nat × Nat)) :
    ValueStep
      { rows := rows, columns := columns, mineCount := mineCount,
        board := List.replicate columns (List.replicate rows blankCell),
        status := GameStatus.Playing, revealed_count := 0, flag_count := 0 }
      (Game.new rows columns mineCount shuffled) :=
  valueStep_trans (valueStep_add_mines _ shuffled) (valueStep_add_numbers _)

theorem getD_mem {α : Type} (l : List α) (i : Nat) (d : α) (h : i < l.length) :
    l.getD i d ∈ l := by
  rw [List.getD_eq_getElem l d h]
  exact List.getElem_mem h

theorem replicate_getD {α : Type} (n i : Nat) (a d : α) (h : i < n) :
    (List.replicate n a).getD i d = a := by
  induction n generalizing i with
  | zero => omega
  | succ m ih =>
    cases i with
    | zero => rfl
    | succ j =>
      simp only [List.replicate, List.getD_cons_succ]
      exact ih j (by omega)

theorem freshBoard_get (columns rows x y : Nat) :
    boardGet (List.replicate columns (List.replicate rows blankCell)) x y = blankCell := by
  unfold boardGet
  by_cases hx : x < columns
  · rw [replicate_getD columns x _ [] (by simpa using hx)]
    by_cases hy : y < rows
    · rw [replicate_getD rows y _ blankCell (by simpa using hy)]
    · rw [List.getD_eq_default _ _ (by simpa using Nat.le_of_not_lt hy)]
  · have hout : (List.replicate columns (List.replicate rows blankCell)).getD x [] = [] :=
      List.getD_eq_default _ _ (by simpa using Nat.le_of_not_lt hx)
    rw [hout, List.getD_nil]

theorem freshBoard_shape (rows columns mineCount : Nat) :
    BoardShape
      { rows := rows, columns := columns, mineCount := mineCount,
        board := List.replicate columns (List.replicate rows blankCell),
        status := GameStatus.Playing, revealed_count := 0, flag_count := 0 } := by
  refine ⟨by simp, ?_⟩
  intro i hi
  show ((List.replicate columns (List.replicate rows blankCell)).getD i []).length = rows
  rw [replicate_getD columns i _ [] hi]
  simp

theorem new_covered (rows columns mineCount : Nat) (shuffled : List (Nat × Nat)) :
    ∀ a b, ((Game.new rows columns mineCount shuffled).getCell a b).status
      = CellStatus.Covered := by
  intro a b
  rw [(valueStep_new rows columns mineCount shuffled).cell_status a b]
  show (boardGet (List.replicate columns (List.replicate rows blankCell)) a b).status = _
  rw [freshBoard_get]
  rfl

theorem new_shape (rows columns mineCount : Nat) (shuffled : List (Nat × Nat)) :
    BoardShape (Game.new rows columns mineCount shuffled) := by
  have hv := valueStep_new rows columns mineCount shuffled
  have hf := freshBoard_shape rows columns mineCount
  refine ⟨?_, ?_⟩
  · rw [hv.len_eq, hv.columns_eq]
    exact hf.1
  · intro i hi
    rw [hv.col_len_eq i, hv.rows_eq]
    exact hf.2 i (by rw [← hv.columns_eq]; exact hi)

theorem new_fields (rows columns mineCount : Nat) (shuffled : List (Nat × Nat)) :
    (Game.new rows columns mineCount shuffled).rows = rows ∧
    (Game.new rows columns mineCount shuffled).columns = columns ∧
    (Game.new rows columns mineCount shuffled).mineCount = mineCount ∧
    (Game.new rows columns mineCount shuffled).status = GameStatus.Playing ∧
    (Game.new rows columns mineCount shuffled).revealed_count = 0 ∧
    (Game.new rows columns mineCount shuffled).flag_count = 0 := by
  have hv := valueStep_new rows columns mineCount shuffled
  exact ⟨hv.rows_eq, hv.columns_eq, hv.mineCount_eq, hv.status_eq, hv.revealed_eq, hv.flag_eq⟩

theorem boardCountP_zero_of_pointwise (b : List (List Cell)) (p : Cell → Bool)
    (h : ∀ x y, p (boardGet b x y) = false) : boardCountP b p = 0 := by
  unfold boardCountP
  apply List.sum_eq_zero
  intro n hn
  rw [List.mem_map] at hn
  obtain ⟨col, hcol, rfl⟩ := hn
  rw [List.countP_eq_zero]
  intro c hc
  obtain ⟨x, hx, hcx⟩ := List.mem_iff_getElem.mp hcol
  obtain ⟨y, hy, hcy⟩ := List.mem_iff_getElem.mp hc
  have hb : boardGet b x y = c := by
    unfold boardGet
    rw [List.getD_eq_getElem b [] hx, hcx, List.getD_eq_getElem col blankCell hy, hcy]
  have := h x y
  rw [hb] at this
  simp [this]

theorem mem_allPositions (rows columns : Nat) (p : Nat × Nat) :
    p ∈ allPositions rows columns ↔ p.1 < columns ∧ p.2 < rows := by
  obtain ⟨a, b⟩ := p
  unfold allPositions
  simp only [List.mem_flatMap, List.mem_map, List.mem_range]
  constructor
  · rintro ⟨y, hy, x, hx, he⟩
    rw [Prod.mk.injEq] at he
    obtain ⟨rfl, rfl⟩ := he
    exact ⟨hx, hy⟩
  · rintro ⟨h1, h2⟩
    exact ⟨b, h2, a, h1, rfl⟩

theorem nodup_allPositions (rows columns : Nat) : (allPositions rows columns).Nodup := by
  unfold allPositions
  rw [List.nodup_flatMap]
  constructor
  · intro y _
    refine List.Nodup.map ?_ (List.nodup_range columns)
    intro a b h
    rw [Prod.mk.injEq] at h
    exact h.1
  · refine (List.pairwise_lt_range rows).imp ?_
    intro a b hab
    show List.Disjoint _ _
    rw [List.disjoint_left]
    intro q hqa hqb
    rw [List.mem_map] at hqa hqb
    obtain ⟨x1, _, h1⟩ := hqa
    obtain ⟨x2, _, h2⟩ := hqb
    rw [← h2, Prod.mk.injEq] at h1
    omega

theorem length_allPositions (rows columns : Nat) :
    (allPositions rows columns).length = rows * columns := by
  unfold allPositions
  rw [List.length_flatMap]
  have hmap : (List.range rows).map (List.length ∘ fun y => (List.range columns).map fun x => (x, y))
      = List.replicate rows columns := by
    rw [show (List.length ∘ fun y => (List.range columns).map fun x => (x, y))
        = Function.const Nat columns from by
      funext y
      simp]
    rw [List.map_const, List.length_range]
  rw [hmap, List.sum_const_nat]

theorem boardShape_of_valueStep {g r : Game} (h : ValueStep g r) (hs : BoardShape g) :
    BoardShape r := by
  refine ⟨?_, ?_⟩
  · rw [h.len_eq, h.columns_eq]
    exact hs.1
  · intro i hi
    rw [h.col_len_eq i, h.rows_eq]
    exact hs.2 i (by rw [← h.columns_eq]; exact hi)

theorem boardShape_of_stepOk {g r : Game} (h : StepOk g r) (hs : BoardShape g) :
    BoardShape r := by
  refine ⟨?_, ?_⟩
  · rw [h.len_eq, h.columns_eq]
    exact hs.1
  · intro i hi
    rw [h.col_len_eq i, h.rows_eq]
    exact hs.2 i (by rw [← h.columns_eq]; exact hi)

theorem minedCount_fold : ∀ (ps : List (Nat × Nat)) (g : Game),
    ps.Nodup →
    (∀ p ∈ ps, p.1 < g.board.length ∧ p.2 < (g.board.getD p.1 []).length ∧
      (g.getCell p.1 p.2).value ≠ CellValue.Mined) →
    minedCount (ps.foldl (fun gg p => gg.setCellValue p.1 p.2 CellValue.Mined) g)
      = minedCount g + ps.length := by
  intro ps
  induction ps with
  | nil =>
    intro g _ _
    simp [List.foldl_nil]
  | cons q tl ih =>
    intro g hnd hin
    obtain ⟨hx, hy, hnm⟩ := hin q (List.mem_cons_self _ _)
    simp only [List.foldl_cons]
    have h1 : minedCount (g.setCellValue q.1 q.2 CellValue.Mined) = minedCount g + 1 := by
      unfold minedCount
      show boardCountP (boardSet g.board q.1 q.2 _) _ = boardCountP g.board _ + 1
      have h := boardCountP_boardSet g.board q.1 q.2 (fun c => { c with value := CellValue.Mined })
        (fun c => decide (c.value = CellValue.Mined)) hx hy
      unfold Game.getCell at hnm
      rw [if_neg (by simpa using hnm), if_pos (by simp)] at h
      omega
    have hq_notin : q ∉ tl := (List.nodup_cons.mp hnd).1
    have hin1 : ∀ p ∈ tl, p.1 < (g.setCellValue q.1 q.2 CellValue.Mined).board.length ∧
        p.2 < ((g.setCellValue q.1 q.2 CellValue.Mined).board.getD p.1 []).length ∧
        ((g.setCellValue q.1 q.2 CellValue.Mined).getCell p.1 p.2).value ≠ CellValue.Mined := by
      intro p hp
      obtain ⟨ha, hb, hc⟩ := hin p (List.mem_cons_of_mem _ hp)
      have hpq : ¬(p.1 = q.1 ∧ p.2 = q.2) := by
        rintro ⟨h1, h2⟩
        apply hq_notin
        have : p = q := Prod.ext h1 h2
        rw [← this]
        exact hp
      refine ⟨?_, ?_, ?_⟩
      · rw [setCellValue_board, boardSet_length]
        exact ha
      · rw [setCellValue_board, boardSet_col_length]
        exact hb
      · rw [getCell_setCellValue_ne g q.1 q.2 p.1 p.2 _ hpq]
        exact hc
    rw [ih (g.setCellValue q.1 q.2 CellValue.Mined) (List.Nodup.of_cons hnd) hin1, h1]
    simp only [List.length_cons]
    omega

theorem minedCount_numberStep (g : Game) (p : Nat × Nat) :
    minedCount (numberStep g p) = minedCount g := by
  unfold numberStep
  split
  · rfl
  · next h =>
    unfold minedCount
    show boardCountP (boardSet g.board p.1 p.2 _) _ = boardCountP g.board _
    apply boardCountP_boardSet_invariant
    unfold Game.getCell at h
    simp [h]

theorem minedCount_fold_numberStep : ∀ (ps : List (Nat × Nat)) (g : Game),
    minedCount (ps.foldl numberStep g) = minedCount g := by
  intro ps
  induction ps with
  | nil => intro g; rfl
  | cons q tl ih =>
    intro g
    simp only [List.foldl_cons]
    rw [ih (numberStep g q), minedCount_numberStep]

theorem numberStep_getCell (g : Game) (q : Nat × Nat)
    (hb : q.1 < g.board.length ∧ q.2 < (g.board.getD q.1 []).length) :
    ∀ a b, (numberStep g q).getCell a b
      = if (a, b) = q ∧ (g.getCell a b).value ≠ CellValue.Mined
        then { g.getCell a b with value := CellValue.Number (mineAdj g a b) }
        else g.getCell a b := by
  intro a b
  unfold numberStep
  by_cases hm : (g.getCell q.1 q.2).value = CellValue.Mined
  · rw [if_pos hm]
    by_cases he : (a, b) = q
    · have ha : a = q.1 := by rw [← he]
      have hbq : b = q.2 := by rw [← he]
      rw [if_neg]
      rintro ⟨_, hnm⟩
      rw [ha, hbq] at hnm
      exact hnm hm
    · rw [if_neg (fun hc => he hc.1)]
  · rw [if_neg hm]
    by_cases he : (a, b) = q
    · have ha : a = q.1 := by rw [← he]
      have hbq : b = q.2 := by rw [← he]
      subst ha
      subst hbq
      rw [getCell_setCellValue_self g q.1 q.2 _ hb.1 hb.2, if_pos ⟨rfl, hm⟩]
    · have hne : ¬(a = q.1 ∧ b = q.2) := by
        rintro ⟨h1, h2⟩
        exact he (by rw [h1, h2])
      rw [getCell_setCellValue_ne g q.1 q.2 a b _ hne, if_neg (fun hc => he hc.1)]

theorem numberStep_mineAdj (g : Game) (q : Nat × Nat)
    (hb : q.1 < g.board.length ∧ q.2 < (g.board.getD q.1 []).length) :
    ∀ a b, mineAdj (numberStep g q) a b = mineAdj g a b := by
  intro a b
  unfold mineAdj
  rw [(valueStep_numberStep g q).columns_eq, (valueStep_numberStep g q).rows_eq]
  refine List.countP_congr ?_
  intro r _
  rw [numberStep_getCell g q hb r.1 r.2]
  split
  · next hcond => simp [hcond.2]
  · exact Iff.rfl

theorem numberFold_spec : ∀ (ps : List (Nat × Nat)) (g : Game),
    BoardShape g → (∀ p ∈ ps, p.1 < g.columns ∧ p.2 < g.rows) →
    ∀ x y, (ps.foldl numberStep g).getCell x y
      = if (x, y) ∈ ps ∧ (g.getCell x y).value ≠ CellValue.Mined
        then { g.getCell x y with value := CellValue.Number (mineAdj g x y) }
        else g.getCell x y := by
  intro ps
  induction ps with
  | nil =>
    intro g _ _ x y
    simp
  | cons q tl ih =>
    intro g hshape hin x y
    obtain ⟨hqx, hqy⟩ := hin q (List.mem_cons_self _ _)
    have hb : q.1 < g.board.length ∧ q.2 < (g.board.getD q.1 []).length :=
      (boardShape_bounds g hshape q.1 q.2).mpr ⟨hqx, hqy⟩
    simp only [List.foldl_cons]
    have hvs := valueStep_numberStep g q
    have hshape1 : BoardShape (numberStep g q) := boardShape_of_valueStep hvs hshape
    have hin1 : ∀ p ∈ tl, p.1 < (numberStep g q).columns ∧ p.2 < (numberStep g q).rows := by
      intro p hp
      rw [hvs.columns_eq, hvs.rows_eq]
      exact hin p (List.mem_cons_of_mem _ hp)
    rw [ih (numberStep g q) hshape1 hin1 x y, numberStep_getCell g q hb x y,
      numberStep_mineAdj g q hb x y]
    by_cases hm : (g.getCell x y).value = CellValue.Mined
    · have h1 : (if (x, y) = q ∧ (g.getCell x y).value ≠ CellValue.Mined
          then { g.getCell x y with value := CellValue.Number (mineAdj g x y) }
          else g.getCell x y) = g.getCell x y := if_neg (fun hc => hc.2 hm)
      rw [h1, if_neg (fun hc => hc.2 hm), if_neg (fun hc => hc.2 hm)]
    · by_cases heq : (x, y) = q
      · have h1 : (if (x, y) = q ∧ (g.getCell x y).value ≠ CellValue.Mined
            then { g.getCell x y with value := CellValue.Number (mineAdj g x y) }
            else g.getCell x y)
            = { g.getCell x y with value := CellValue.Number (mineAdj g x y) } :=
          if_pos ⟨heq, hm⟩
        rw [h1]
        by_cases hmem : (x, y) ∈ tl
        · rw [if_pos ⟨hmem, (by simp :
              ({ g.getCell x y with value := CellValue.Number (mineAdj g x y) } : Cell).value
                ≠ CellValue.Mined)⟩,
            if_pos ⟨List.mem_cons.mpr (Or.inl heq), hm⟩]
        · rw [if_neg (fun hc => hmem hc.1), if_pos ⟨List.mem_cons.mpr (Or.inl heq), hm⟩]
      · have h1 : (if (x, y) = q ∧ (g.getCell x y).value ≠ CellValue.Mined
            then { g.getCell x y with value := CellValue.Number (mineAdj g x y) }
            else g.getCell x y) = g.getCell x y := if_neg (fun hc => heq hc.1)
        rw [h1]
        by_cases hmem : (x, y) ∈ tl
        · rw [if_pos ⟨hmem, hm⟩, if_pos ⟨List.mem_cons.mpr (Or.inr hmem), hm⟩]
        · rw [if_neg (fun hc => hmem hc.1), if_neg (fun hc => by
            rcases List.mem_cons.mp hc.1 with h | h
            · exact heq h
            · exact hmem h)]

/-- The record `Game::new` builds before placing mines. -/
def freshGame (rows columns mineCount : Nat) : Game :=
  { rows := rows, columns := columns, mineCount := mineCount,
    board := List.replicate columns (List.replicate rows blankCell),
    status := GameStatus.Playing, revealed_count := 0, flag_count := 0 }

theorem minedCount_add_numbers (g : Game) : minedCount g.add_numbers = minedCount g :=
  minedCount_fold_numberStep _ _

theorem add_mines_minedCount (g : Game) (shuffled : List (Nat × Nat))
    (hd : (shuffled.take g.mineCount).Nodup)
    (hin : ∀ p ∈ shuffled.take g.mineCount, p.1 < g.board.length ∧
      p.2 < (g.board.getD p.1 []).length ∧ (g.getCell p.1 p.2).value ≠ CellValue.Mined) :
    minedCount (g.add_mines shuffled) = minedCount g + (shuffled.take g.mineCount).length :=
  minedCount_fold _ g hd hin

theorem new_minedCount (rows columns mineCount : Nat) (shuffled : List (Nat × Nat))
    (hperm : List.Perm shuffled (allPositions rows columns))
    (hmc : mineCount ≤ rows * columns) :
    minedCount (Game.new rows columns mineCount shuffled) = mineCount := by
  have hsn : shuffled.Nodup := (hperm.nodup_iff).mpr (nodup_allPositions rows columns)
  show minedCount
    (((freshGame rows columns mineCount).add_mines shuffled).add_numbers) = mineCount
  rw [minedCount_add_numbers]
  rw [add_mines_minedCount _ shuffled
    ((List.take_sublist _ _).nodup hsn)
    (by
      intro p hp
      have hmem : p ∈ shuffled := (List.take_sublist _ _).subset hp
      have hpos := (mem_allPositions rows columns p).mp (hperm.mem_iff.mp hmem)
      refine ⟨?_, ?_, ?_⟩
      · show p.1 < (List.replicate columns (List.replicate rows blankCell)).length
        simpa using hpos.1
      · show p.2 < ((List.replicate columns (List.replicate rows blankCell)).getD p.1 []).length
        rw [replicate_getD columns p.1 _ [] hpos.1]
        simpa using hpos.2
      · show (boardGet (List.replicate columns (List.replicate rows blankCell)) p.1 p.2).value
          ≠ CellValue.Mined
        rw [freshBoard_get]
        simp [blankCell])]
  have hzero : minedCount (freshGame rows columns mineCount) = 0 := by
    apply boardCountP_zero_of_pointwise
    intro x y
    show (decide ((boardGet (List.replicate columns (List.replicate rows blankCell)) x y).value
      = CellValue.Mined)) = false
    rw [freshBoard_get]
    simp [blankCell]
  rw [hzero]
  show 0 + (shuffled.take mineCount).length = mineCount
  rw [List.length_take, hperm.length_eq, length_allPositions]
  omega

theorem numberFold_mineAdj (ps : List (Nat × Nat)) (g : Game)
    (hs : BoardShape g) (hin : ∀ p ∈ ps, p.1 < g.columns ∧ p.2 < g.rows) :
    ∀ x y, mineAdj (ps.foldl numberStep g) x y = mineAdj g x y := by
  intro x y
  unfold mineAdj
  rw [(valueStep_fold_numberStep ps g).columns_eq, (valueStep_fold_numberStep ps g).rows_eq]
  refine List.countP_congr ?_
  intro r _
  rw [numberFold_spec ps g hs hin r.1 r.2]
  split
  · next hcond => simp [hcond.2]
  · exact Iff.rfl

theorem add_numbers_numbersCorrect (g : Game) (hs : BoardShape g) :
    NumbersCorrect g.add_numbers := by
  intro x hx y hy hnm
  unfold Game.add_numbers at hx hy hnm ⊢
  have hin : ∀ p ∈ allPositions g.rows g.columns, p.1 < g.columns ∧ p.2 < g.rows :=
    fun p hp => (mem_allPositions g.rows g.columns p).mp hp
  rw [(valueStep_fold_numberStep (allPositions g.rows g.columns) g).columns_eq] at hx
  rw [(valueStep_fold_numberStep (allPositions g.rows g.columns) g).rows_eq] at hy
  rw [numberFold_spec _ g hs hin x y] at hnm ⊢
  rw [numberFold_mineAdj _ g hs hin x y]
  by_cases hm : (g.getCell x y).value = CellValue.Mined
  · rw [if_neg (fun hc => hc.2 hm)] at hnm
    exact absurd hm hnm
  · rw [if_pos ⟨(mem_allPositions _ _ (x, y)).mpr ⟨hx, hy⟩, hm⟩]

theorem new_numbersCorrect (rows columns mineCount : Nat) (shuffled : List (Nat × Nat)) :
    NumbersCorrect (Game.new rows columns mineCount shuffled) := by
  show NumbersCorrect
    (((freshGame rows columns mineCount).add_mines shuffled).add_numbers)
  exact add_numbers_numbersCorrect _
    (boardShape_of_valueStep (valueStep_add_mines _ shuffled)
      (freshBoard_shape rows columns mineCount))

/-! ### The engine invariant over reachable states -/

/-- Bookkeeping invariant of the engine: well-shaped board, `flag_count` and
`revealed_count` in sync with the grid (`revealed_count` counts revealed
non-mine cells: the mine revealed on a loss is deliberately not counted by
`reveal_multiple`), and the flag budget respected. -/
def EngineInv (g : Game) : Prop :=
  BoardShape g ∧ g.flag_count = flaggedCount g ∧ g.revealed_count = safeRevealedCells g ∧
  g.flag_count ≤ g.mineCount

theorem engineInv_of_stepOk {g r : Game} (h : StepOk g r) (hi : EngineInv g) : EngineInv r := by
  obtain ⟨hs, hf, hr, hm⟩ := hi
  refine ⟨boardShape_of_stepOk h hs, ?_, ?_, ?_⟩
  · rw [h.flag_eq, h.flagged_eq]
    exact hf
  · have hb := h.revealed_bal
    omega
  · rw [h.flag_eq, h.mineCount_eq]
    exact hm

theorem engineInv_new (rows columns mineCount : Nat) (shuffled : List (Nat × Nat)) :
    EngineInv (Game.new rows columns mineCount shuffled) := by
  obtain ⟨h1, h2, h3, h4, h5, h6⟩ := new_fields rows columns mineCount shuffled
  refine ⟨new_shape _ _ _ _, ?_, ?_, ?_⟩
  · rw [h6]
    symm
    apply boardCountP_zero_of_pointwise
    intro x y
    have hcv := new_covered rows columns mineCount shuffled x y
    show decide ((boardGet (Game.new rows columns mineCount shuffled).board x y).status
      = CellStatus.Flagged) = false
    unfold Game.getCell at hcv
    rw [hcv]
    simp
  · rw [h5]
    symm
    apply boardCountP_zero_of_pointwise
    intro x y
    have hcv := new_covered rows columns mineCount shuffled x y
    show decide ((boardGet (Game.new rows columns mineCount shuffled).board x y).status
        = CellStatus.Revealed ∧
      (boardGet (Game.new rows columns mineCount shuffled).board x y).value ≠ CellValue.Mined)
      = false
    unfold Game.getCell at hcv
    rw [hcv]
    simp
  · rw [h6, h3]
    omega

theorem engineInv_flag (g : Game) (x y : Nat) (shuffled : List (Nat × Nat))
    (hi : EngineInv g) (hv : x < g.columns ∧ y < g.rows) :
    EngineInv (g.update (Message.Flag x y) shuffled) := by
  obtain ⟨hs, hf, hr, hm⟩ := hi
  have hb : x < g.board.length ∧ y < (g.board.getD x []).length :=
    (boardShape_bounds g hs x y).mpr hv
  show EngineInv (if g.status ≠ GameStatus.Playing then g else
    match (g.getCell x y).status with
    | CellStatus.Covered =>
      if g.mineCount = g.flag_count then g
      else { g.setCellStatus x y CellStatus.Flagged with flag_count := g.flag_count + 1 }
    | CellStatus.Flagged =>
      { g.setCellStatus x y CellStatus.Covered with flag_count := g.flag_count - 1 }
    | CellStatus.Revealed => g)
  by_cases hst : g.status ≠ GameStatus.Playing
  · rw [if_pos hst]
    exact ⟨hs, hf, hr, hm⟩
  · rw [if_neg hst]
    cases hcs : (g.getCell x y).status with
    | Covered =>
      simp only [hcs]
      by_cases hfc : g.mineCount = g.flag_count
      · rw [if_pos hfc]
        exact ⟨hs, hf, hr, hm⟩
      · rw [if_neg hfc]
        unfold Game.getCell at hcs
        have hcount := boardCountP_boardSet g.board x y
          (fun c => { c with status := CellStatus.Flagged })
          (fun c => decide (c.status = CellStatus.Flagged)) hb.1 hb.2
        rw [if_neg (by simp [hcs]), if_pos (by simp)] at hcount
        have hsafe : boardCountP (boardSet g.board x y
            (fun c => { c with status := CellStatus.Flagged }))
            (fun c => decide (c.status = CellStatus.Revealed ∧ c.value ≠ CellValue.Mined))
            = boardCountP g.board
            (fun c => decide (c.status = CellStatus.Revealed ∧ c.value ≠ CellValue.Mined)) :=
          boardCountP_boardSet_invariant _ _ _ _ _ (by simp [hcs])
        refine ⟨?_, ?_, ?_, ?_⟩
        · exact boardShape_setCellStatus g x y CellStatus.Flagged hs
        · show g.flag_count + 1 = flaggedCount _
          unfold flaggedCount at hf ⊢
          show g.flag_count + 1 = boardCountP (boardSet g.board x y _) _
          omega
        · show g.revealed_count = safeRevealedCells _
          unfold safeRevealedCells at hr ⊢
          show g.revealed_count = boardCountP (boardSet g.board x y _) _
          rw [hsafe]
          exact hr
        · show g.flag_count + 1 ≤ g.mineCount
          omega
    | Flagged =>
      simp only [hcs]
      unfold Game.getCell at hcs
      have hpos : 1 ≤ flaggedCount g := by
        apply boardCountP_pos g.board x y
        · simp [blankCell]
        · simp [hcs]
      have hcount := boardCountP_boardSet g.board x y
        (fun c => { c with status := CellStatus.Covered })
        (fun c => decide (c.status = CellStatus.Flagged)) hb.1 hb.2
      rw [if_pos (by simp [hcs]), if_neg (by simp)] at hcount
      have hsafe : boardCountP (boardSet g.board x y
          (fun c => { c with status := CellStatus.Covered }))
          (fun c => decide (c.status = CellStatus.Revealed ∧ c.value ≠ CellValue.Mined))
          = boardCountP g.board
          (fun c => decide (c.status = CellStatus.Revealed ∧ c.value ≠ CellValue.Mined)) :=
        boardCountP_boardSet_invariant _ _ _ _ _ (by simp [hcs])
      refine ⟨?_, ?_, ?_, ?_⟩
      · exact boardShape_setCellStatus g x y CellStatus.Covered hs
      · show g.flag_count - 1 = flaggedCount _
        unfold flaggedCount at hf ⊢
        show g.flag_count - 1 = boardCountP (boardSet g.board x y _) _
        unfold flaggedCount at hpos
        omega
      · show g.revealed_count = safeRevealedCells _
        unfold safeRevealedCells at hr ⊢
        show g.revealed_count = boardCountP (boardSet g.board x y _) _
        rw [hsafe]
        exact hr
      · show g.flag_count - 1 ≤ g.mineCount
        omega
    | Revealed =>
      simp only [hcs]
      exact ⟨hs, hf, hr, hm⟩

theorem reachable_engineInv {g : Game} (h : Reachable g) : EngineInv g := by
  induction h with
  | new rows columns mineCount shuffled => exact engineInv_new rows columns mineCount shuffled
  | step m shuffled hg hv ih =>
    rename_i g0
    cases m with
    | NewGame => exact engineInv_new g0.rows g0.columns g0.mineCount shuffled
    | Pressing b => cases b <;> exact ih
    | Reveal x y => exact engineInv_of_stepOk (reveal_multiple_stepOk g0 x y) ih
    | SpecialReveal x y => exact engineInv_of_stepOk (reveal_special_stepOk g0 x y) ih
    | Flag x y => exact engineInv_flag g0 x y shuffled ih hv

/-! ### Remaining helpers and concrete demonstration games -/

theorem reveal_multiple_noop (g : Game) (a b : Nat)
    (h : (g.getCell a b).status ≠ CellStatus.Covered) : g.reveal_multiple a b = g := by
  show revealLoopF (revealFuel g [(a, b)] + 1) g [(a, b)] = g
  by_cases hb : a < g.board.length ∧ b < (g.board.getD a []).length
  · rw [revealLoopF_succ_skip _ g a b [] hb h, revealLoopF_nil]
  · rw [revealLoopF_succ_oob _ g a b [] hb, revealLoopF_nil]

theorem chordFold_eq_reveal_fold : ∀ (l : List (Nat × Nat)) (g : Game),
    l.foldl chordStep g = l.foldl (fun gg q => gg.reveal_multiple q.1 q.2) g := by
  intro l
  induction l with
  | nil => intro g; rfl
  | cons q tl ih =>
    intro g
    simp only [List.foldl_cons]
    rw [show chordStep g q = g.reveal_multiple q.1 q.2 from by
      unfold chordStep
      split
      · rfl
      · next h => exact (reveal_multiple_noop g q.1 q.2 h).symm]
    exact ih _

/-- A fixed shuffle outcome for a 1-row, 2-column, 1-mine game: the mine
lands at (1, 0) and (0, 0) becomes Number 1. -/
def demoShuffle : List (Nat × Nat) := [(1, 0), (0, 0)]

def demoGame : Game := Game.new 1 2 1 demoShuffle

/-- The demo game after revealing the mine: status `Lost`, mine revealed,
`revealed_count` still 0, the numbered cell still covered. -/
def demoLost : Game := demoGame.update (Message.Reveal 1 0) []

/-- The demo game while the mouse is held down. -/
def demoPressing : Game := demoGame.update (Message.Pressing true) []

theorem reachable_demoGame : Reachable demoGame :=
  Reachable.new 1 2 1 demoShuffle

theorem reachable_demoLost : Reachable demoLost :=
  Reachable.step (Message.Reveal 1 0) [] reachable_demoGame ⟨by decide, by decide⟩

theorem reachable_demoPressing : Reachable demoPressing :=
  Reachable.step (Message.Pressing true) [] reachable_demoGame trivial

theorem flag_noop_of_not_playing (g : Game) (x y : Nat) (pos : List (Nat × Nat))
    (h : g.status ≠ GameStatus.Playing) : g.update (Message.Flag x y) pos = g := by
  show (if g.status ≠ GameStatus.Playing then g
    else match (g.getCell x y).status with
    | CellStatus.Covered =>
      if g.mineCount = g.flag_count then g
      else { g.setCellStatus x y CellStatus.Flagged with flag_count := g.flag_count + 1 }
    | CellStatus.Flagged =>
      { g.setCellStatus x y CellStatus.Covered with flag_count := g.flag_count - 1 }
    | CellStatus.Revealed => g) = g
  rw [if_pos h]

/-! ### The claims -/

/-- Claim C1, counterexample: in a reachable lost game, a further `Reveal`
message still changes a cell, changes `revealed_count`, and even flips the
status from `Lost` to `Won` — terminal states freeze only `toggle_flag`, not
`reveal`/`chord_reveal`, because `Game::update` gates only `Message::Flag`
on the status. -/
theorem C1_counterexample :
    demoLost.status = GameStatus.Lost ∧ Reachable demoLost ∧
    (demoLost.update (Message.Reveal 0 0) []).revealed_count ≠ demoLost.revealed_count ∧
    ((demoLost.update (Message.Reveal 0 0) []).getCell 0 0).status
      ≠ (demoLost.getCell 0 0).status ∧
    (demoLost.update (Message.Reveal 0 0) []).status = GameStatus.Won :=
  ⟨by decide, reachable_demoLost, by decide, by decide, by decide⟩

/-- Claim C1 (amended): once the status is `Lost` or `Won`, `toggle_flag`
calls leave the state unchanged; `reveal` and `chord_reveal` are not gated
by the terminal status (the view stops emitting them, but the engine does
not check), so only the flag path is frozen in the engine itself. -/
theorem C1_flag_frozen_after_terminal (g : Game) (x y : Nat) (pos : List (Nat × Nat))
    (h : g.status = GameStatus.Lost ∨ g.status = GameStatus.Won) :
    g.update (Message.Flag x y) pos = g := by
  apply flag_noop_of_not_playing
  rcases h with h | h <;> rw [h] <;> decide

theorem C1_flag_frozen_witness :
    demoLost.status = GameStatus.Lost ∧ demoLost.update (Message.Flag 0 0) [] = demoLost :=
  ⟨by decide, C1_flag_frozen_after_terminal demoLost 0 0 [] (Or.inl (by decide))⟩

/-- Claim C2, counterexample: in a reachable lost game, the revealed mine
has been counted by no one — `revealed_count` is 0 while one cell has
status `Revealed`, because `reveal_multiple` returns from the loss branch
before incrementing the counter. -/
theorem C2_counterexample :
    Reachable demoLost ∧ demoLost.revealed_count = 0 ∧ revealedCells demoLost = 1 :=
  ⟨reachable_demoLost, by decide, by decide⟩

/-- Claim C2 (amended): after every operation from any reachable state,
`revealed_count` equals the number of cells that are `Revealed` and not
`Mined`; the mine revealed on a loss is not counted. -/
theorem C2_revealed_count_tracks_safe_cells (g : Game) (h : Reachable g) :
    g.revealed_count = safeRevealedCells g :=
  (reachable_engineInv h).2.2.1

theorem C2_revealed_count_witness :
    Reachable demoLost ∧ demoLost.revealed_count = safeRevealedCells demoLost :=
  ⟨reachable_demoLost, C2_revealed_count_tracks_safe_cells demoLost reachable_demoLost⟩

/-- Claim C3, counterexample: in a reachable game whose status is
`Pressing`, flagging a covered cell is a no-op — the cell stays covered and
`flag_count` stays 0 — because the `Message::Flag` handler requires the
status to be exactly `Playing`. -/
theorem C3_counterexample :
    demoPressing.status = GameStatus.Pressing ∧ Reachable demoPressing ∧
    (demoPressing.getCell 0 0).status = CellStatus.Covered ∧
    demoPressing.update (Message.Flag 0 0) [] = demoPressing ∧
    (demoPressing.update (Message.Flag 0 0) []).flag_count = 0 :=
  ⟨by decide, reachable_demoPressing, by decide, by decide, by decide⟩

/-- Claim C3 (amended): while `Pressing`, `reveal` and `chord_reveal`
behave exactly as while `Playing` — the result is the same game up to the
`pressLike` status transport, since the reveal paths never read the status —
but `toggle_flag` is gated on the status being exactly `Playing`, so while
`Pressing` it is a no-op and flags nothing. -/
theorem C3_pressing_semantics (g : Game) (x y : Nat) (pos : List (Nat × Nat)) :
    ((g.withStatus GameStatus.Pressing).update (Message.Flag x y) pos
      = g.withStatus GameStatus.Pressing) ∧
    ((g.withStatus GameStatus.Pressing).update (Message.Reveal x y) pos
      = pressLike ((g.withStatus GameStatus.Playing).update (Message.Reveal x y) pos)
          GameStatus.Pressing) ∧
    ((g.withStatus GameStatus.Pressing).update (Message.SpecialReveal x y) pos
      = pressLike ((g.withStatus GameStatus.Playing).update (Message.SpecialReveal x y) pos)
          GameStatus.Pressing) := by
  refine ⟨?_, ?_, ?_⟩
  · exact flag_noop_of_not_playing _ x y pos (by rw [withStatus_status]; decide)
  · exact reveal_multiple_withStatus g x y GameStatus.Pressing
  · exact reveal_special_withStatus g x y GameStatus.Pressing

/-- Claim C4, counterexample: from a reachable lost game, a `Pressing
false` release signal moves the status straight back to `Playing` without
any re-generation — the board is unchanged — because `Message::Pressing`
sets the status unconditionally. -/
theorem C4_counterexample :
    demoLost.status = GameStatus.Lost ∧ Reachable demoLost ∧
    (demoLost.update (Message.Pressing false) []).status = GameStatus.Playing ∧
    (demoLost.update (Message.Pressing false) []).board = demoLost.board :=
  ⟨by decide, reachable_demoLost, by decide, by decide⟩

/-- Claim C4 (amended): from a terminal status, the only messages that can
make the status `Playing` are `NewGame` (reset, full re-generation) and the
unconditional `Pressing false` release signal; `reveal`, `chord_reveal` and
`toggle_flag` never produce `Playing` from `Lost`/`Won`. -/
theorem C4_terminal_exit_paths (g : Game) (m : Message) (pos : List (Nat × Nat))
    (hterm : g.status = GameStatus.Lost ∨ g.status = GameStatus.Won)
    (hres : (g.update m pos).status = GameStatus.Playing) :
    m = Message.NewGame ∨ m = Message.Pressing false := by
  cases m with
  | NewGame => exact Or.inl rfl
  | Pressing b =>
    cases b with
    | false => exact Or.inr rfl
    | true =>
      have hres2 : GameStatus.Pressing = GameStatus.Playing := hres
      exact absurd hres2 (by decide)
  | Reveal x y =>
    exfalso
    have hres2 : (g.reveal_multiple x y).status = GameStatus.Playing := hres
    rcases (reveal_multiple_stepOk g x y).status_range with h | h | h <;> rw [hres2] at h
    · rcases hterm with ht | ht <;> rw [← h] at ht <;> exact absurd ht (by decide)
    · exact absurd h (by decide)
    · exact absurd h (by decide)
  | SpecialReveal x y =>
    exfalso
    have hres2 : (g.reveal_special x y).status = GameStatus.Playing := hres
    rcases (reveal_special_stepOk g x y).status_range with h | h | h <;> rw [hres2] at h
    · rcases hterm with ht | ht <;> rw [← h] at ht <;> exact absurd ht (by decide)
    · exact absurd h (by decide)
    · exact absurd h (by decide)
  | Flag x y =>
    exfalso
    have hstat : g.update (Message.Flag x y) pos = g :=
      flag_noop_of_not_playing g x y pos
        (by rcases hterm with h | h <;> rw [h] <;> decide)
    rw [hstat] at hres
    rcases hterm with ht | ht <;> rw [hres] at ht <;> exact absurd ht (by decide)

theorem C4_terminal_exit_witness :
    demoLost.status = GameStatus.Lost ∧
    (Message.NewGame = Message.NewGame ∨ Message.NewGame = Message.Pressing false) :=
  ⟨by decide, C4_terminal_exit_paths demoLost Message.NewGame [] (Or.inl (by decide)) (by decide)⟩

/-- Claim C5: for any shuffle outcome (a permutation of all positions) and
a mine count within the grid, generation produces exactly `mineCount` mined
cells, assigns every non-mined cell the exact count of its mined in-bounds
neighbors, and starts with every cell covered, both counters zero and
status `Playing`. -/
theorem C5_generation (rows columns mineCount : Nat) (shuffled : List (Nat × Nat))
    (hperm : List.Perm shuffled (allPositions rows columns))
    (hmc : mineCount ≤ rows * columns) :
    minedCount (Game.new rows columns mineCount shuffled) = mineCount ∧
    NumbersCorrect (Game.new rows columns mineCount shuffled) ∧
    (∀ x y, ((Game.new rows columns mineCount shuffled).getCell x y).status
      = CellStatus.Covered) ∧
    (Game.new rows columns mineCount shuffled).revealed_count = 0 ∧
    (Game.new rows columns mineCount shuffled).flag_count = 0 ∧
    (Game.new rows columns mineCount shuffled).status = GameStatus.Playing :=
  ⟨new_minedCount rows columns mineCount shuffled hperm hmc,
   new_numbersCorrect rows columns mineCount shuffled,
   new_covered rows columns mineCount shuffled,
   (new_fields rows columns mineCount shuffled).2.2.2.2.1,
   (new_fields rows columns mineCount shuffled).2.2.2.2.2,
   (new_fields rows columns mineCount shuffled).2.2.2.1⟩

theorem C5_generation_witness :
    List.Perm demoShuffle (allPositions 1 2) ∧ 1 ≤ 1 * 2 ∧
    minedCount (Game.new 1 2 1 demoShuffle) = 1 :=
  ⟨by decide, by decide, (C5_generation 1 2 1 demoShuffle (by decide) (by decide)).1⟩

/-- Claim C6: revealing a covered mined cell sets that cell to `Revealed`
and the game to `Lost`, leaves every other cell untouched (no flood fill),
and leaves `revealed_count` and `flag_count` unchanged. -/
theorem C6_reveal_mine (g : Game) (x y : Nat) (hs : BoardShape g)
    (hx : x < g.columns) (hy : y < g.rows)
    (hcov : (g.getCell x y).status = CellStatus.Covered)
    (hmine : (g.getCell x y).value = CellValue.Mined) :
    (g.reveal_multiple x y).status = GameStatus.Lost ∧
    (g.reveal_multiple x y).getCell x y = { g.getCell x y with status := CellStatus.Revealed } ∧
    (g.reveal_multiple x y).revealed_count = g.revealed_count ∧
    (g.reveal_multiple x y).flag_count = g.flag_count ∧
    (∀ a b, ¬(a = x ∧ b = y) → (g.reveal_multiple x y).getCell a b = g.getCell a b) := by
  have hb : x < g.board.length ∧ y < (g.board.getD x []).length :=
    (boardShape_bounds g hs x y).mpr ⟨hx, hy⟩
  have hmine2 : ((g.setCellStatus x y CellStatus.Revealed).getCell x y).value
      = CellValue.Mined := by
    rw [getCell_setCellStatus_value]
    exact hmine
  have hrw : g.reveal_multiple x y
      = { (g.setCellStatus x y CellStatus.Revealed).setCellStatus x y CellStatus.Revealed
          with status := GameStatus.Lost } := by
    show revealLoopF (revealFuel g [(x, y)] + 1) g [(x, y)] = _
    exact revealLoopF_succ_mine _ g x y [] hb hcov hmine2
  have hb2 : x < (g.setCellStatus x y CellStatus.Revealed).board.length ∧
      y < ((g.setCellStatus x y CellStatus.Revealed).board.getD x []).length := by
    rw [setCellStatus_board, boardSet_length, boardSet_col_length]
    exact hb
  have hget2 : boardGet (g.setCellStatus x y CellStatus.Revealed).board x y
      = { boardGet g.board x y with status := CellStatus.Revealed } := by
    rw [setCellStatus_board]
    exact boardGet_boardSet_self g.board x y _ hb.1 hb.2
  rw [hrw]
  refine ⟨rfl, ?_, rfl, rfl, ?_⟩
  · show boardGet (boardSet (g.setCellStatus x y CellStatus.Revealed).board x y
      (fun c => { c with status := CellStatus.Revealed })) x y = _
    rw [boardGet_boardSet_self _ x y _ hb2.1 hb2.2, hget2]
    rfl
  · intro a b hab
    show boardGet (boardSet (g.setCellStatus x y CellStatus.Revealed).board x y
      (fun c => { c with status := CellStatus.Revealed })) a b = _
    rw [boardGet_boardSet_ne _ x y a b _ hab, setCellStatus_board,
      boardGet_boardSet_ne _ x y a b _ hab]
    rfl

theorem C6_reveal_mine_witness :
    (demoGame.getCell 1 0).value = CellValue.Mined ∧
    (demoGame.reveal_multiple 1 0).status = GameStatus.Lost :=
  ⟨by decide,
   (C6_reveal_mine demoGame 1 0 (by unfold BoardShape; decide) (by decide) (by decide)
     (by decide) (by decide)).1⟩

/-- Claim C7: in every reachable state the flag budget holds and keeps
holding after any `toggle_flag`: `flag_count ≤ mineCount`, flagging a
covered cell with the budget exhausted is a no-op, and unflagging a flagged
cell decrements `flag_count` by exactly one with no underflow. -/
theorem C7_flag_budget (g : Game) (h : Reachable g) :
    g.flag_count ≤ g.mineCount ∧
    (∀ x y pos, (g.update (Message.Flag x y) pos).flag_count ≤ g.mineCount) ∧
    (∀ x y pos, g.flag_count = g.mineCount → (g.getCell x y).status = CellStatus.Covered →
      g.update (Message.Flag x y) pos = g) ∧
    (∀ x y pos, g.status = GameStatus.Playing → (g.getCell x y).status = CellStatus.Flagged →
      (g.update (Message.Flag x y) pos).flag_count + 1 = g.flag_count) := by
  obtain ⟨hs, hf, hr, hm⟩ := reachable_engineInv h
  refine ⟨hm, ?_, ?_, ?_⟩
  · intro x y pos
    show (if g.status ≠ GameStatus.Playing then g
      else match (g.getCell x y).status with
      | CellStatus.Covered =>
        if g.mineCount = g.flag_count then g
        else { g.setCellStatus x y CellStatus.Flagged with flag_count := g.flag_count + 1 }
      | CellStatus.Flagged =>
        { g.setCellStatus x y CellStatus.Covered with flag_count := g.flag_count - 1 }
      | CellStatus.Revealed => g).flag_count ≤ g.mineCount
    by_cases hst : g.status ≠ GameStatus.Playing
    · rw [if_pos hst]
      exact hm
    · rw [if_neg hst]
      cases hcs : (g.getCell x y).status with
      | Covered =>
        simp only [hcs]
        by_cases hfc : g.mineCount = g.flag_count
        · rw [if_pos hfc]
          exact hm
        · rw [if_neg hfc]
          show g.flag_count + 1 ≤ g.mineCount
          omega
      | Flagged =>
        simp only [hcs]
        show g.flag_count - 1 ≤ g.mineCount
        omega
      | Revealed =>
        simp only [hcs]
        exact hm
  · intro x y pos hfc hcov
    show (if g.status ≠ GameStatus.Playing then g
      else match (g.getCell x y).status with
      | CellStatus.Covered =>
        if g.mineCount = g.flag_count then g
        else { g.setCellStatus x y CellStatus.Flagged with flag_count := g.flag_count + 1 }
      | CellStatus.Flagged =>
        { g.setCellStatus x y CellStatus.Covered with flag_count := g.flag_count - 1 }
      | CellStatus.Revealed => g) = g
    by_cases hst : g.status ≠ GameStatus.Playing
    · rw [if_pos hst]
    · rw [if_neg hst]
      simp only [hcov]
      rw [if_pos hfc.symm]
  · intro x y pos hst hflag
    show (if g.status ≠ GameStatus.Playing then g
      else match (g.getCell x y).status with
      | CellStatus.Covered =>
        if g.mineCount = g.flag_count then g
        else { g.setCellStatus x y CellStatus.Flagged with flag_count := g.flag_count + 1 }
      | CellStatus.Flagged =>
        { g.setCellStatus x y CellStatus.Covered with flag_count := g.flag_count - 1 }
      | CellStatus.Revealed => g).flag_count + 1 = g.flag_count
    rw [if_neg (by rw [hst]; simp)]
    simp only [hflag]
    show g.flag_count - 1 + 1 = g.flag_count
    have hflag2 : (boardGet g.board x y).status = CellStatus.Flagged := hflag
    have hpos : 1 ≤ flaggedCount g :=
      boardCountP_pos g.board x y _ (by simp [blankCell]) (by simp [hflag2])
    omega

theorem C7_flag_budget_witness :
    Reachable demoGame ∧ demoGame.flag_count ≤ demoGame.mineCount :=
  ⟨reachable_demoGame, (C7_flag_budget demoGame reachable_demoGame).1⟩

/-- Claim C8: `chord_reveal` on a revealed `Number n` cell whose flagged
neighbor count is exactly `n` performs a full `reveal` on every in-bounds
neighbor (revealing exactly the covered ones — `reveal` on a non-covered
cell is a no-op — with full flood-fill/loss/win semantics); when the cell
is not revealed, is mined, or the flag count differs, the whole state is
unchanged. -/
theorem C8_chord_semantics (g : Game) (x y : Nat) :
    ((g.getCell x y).status ≠ CellStatus.Revealed → g.reveal_special x y = g) ∧
    ((g.getCell x y).value = CellValue.Mined → g.reveal_special x y = g) ∧
    (∀ n, (g.getCell x y).value = CellValue.Number n → flaggedAdj g x y ≠ n →
      g.reveal_special x y = g) ∧
    (∀ n, (g.getCell x y).status = CellStatus.Revealed →
      (g.getCell x y).value = CellValue.Number n → flaggedAdj g x y = n →
      g.reveal_special x y = (surroundingCells g.columns g.rows x y).foldl
        (fun gg q => gg.reveal_multiple q.1 q.2) g) := by
  refine ⟨?_, ?_, ?_, ?_⟩
  · intro h
    unfold Game.reveal_special
    rw [if_pos h]
  · intro h
    unfold Game.reveal_special
    by_cases h1 : (g.getCell x y).status ≠ CellStatus.Revealed
    · rw [if_pos h1]
    · rw [if_neg h1]
      simp only [h]
  · intro n hv hne
    unfold Game.reveal_special
    by_cases h1 : (g.getCell x y).status ≠ CellStatus.Revealed
    · rw [if_pos h1]
    · rw [if_neg h1]
      simp only [hv]
      rw [if_neg hne]
  · intro n hst hv hfa
    unfold Game.reveal_special
    rw [if_neg (not_not_intro hst)]
    simp only [hv]
    rw [if_pos hfa]
    exact chordFold_eq_reveal_fold _ g

theorem C8_chord_witness :
    (demoGame.getCell 0 0).status ≠ CellStatus.Revealed ∧
    demoGame.reveal_special 0 0 = demoGame :=
  ⟨by decide, (C8_chord_semantics demoGame 0 0).1 (by decide)⟩

/-- Claim C9: for any in-bounds cell, the neighbor enumeration yields at
most 8 positions, all strictly inside the grid, none equal to the cell
itself, and each exactly one step away in every varying coordinate — no
wrap-around at any edge or corner. -/
theorem C9_neighbors_in_bounds (columns rows x y : Nat) (hx : x < columns) (hy : y < rows) :
    (surroundingCells columns rows x y).length ≤ 8 ∧
    ∀ p ∈ surroundingCells columns rows x y,
      p.1 < columns ∧ p.2 < rows ∧ p ≠ (x, y) ∧
      (p.1 = x ∨ p.1 = x + 1 ∨ p.1 + 1 = x) ∧ (p.2 = y ∨ p.2 = y + 1 ∨ p.2 + 1 = y) :=
  ⟨surroundingCells_length_le columns rows x y, surroundingCells_spec columns rows x y hx hy⟩

theorem C9_neighbors_witness :
    (0 < 30 ∧ 0 < 16) ∧
    ((surroundingCells 30 16 0 0).length ≤ 8 ∧
    ∀ p ∈ surroundingCells 30 16 0 0,
      p.1 < 30 ∧ p.2 < 16 ∧ p ≠ (0, 0) ∧
      (p.1 = 0 ∨ p.1 = 0 + 1 ∨ p.1 + 1 = 0) ∧ (p.2 = 0 ∨ p.2 = 0 + 1 ∨ p.2 + 1 = 0)) :=
  ⟨⟨by decide, by decide⟩, C9_neighbors_in_bounds 30 16 0 0 (by decide) (by decide)⟩

/-- Claim C10: on a board whose adjacency numbers are all correct, a reveal
starting at a covered numbered cell never sets the status to `Lost` (it can
only keep the status or reach `Won`) and never changes a mined cell: the
flood fill pushes neighbors only from `Number 0` cells, which have no mined
neighbor. -/
theorem C10_number_reveal_safe (g : Game) (x y n : Nat) (hs : BoardShape g)
    (hn : NumbersCorrect g) (hx : x < g.columns) (hy : y < g.rows)
    (hcov : (g.getCell x y).status = CellStatus.Covered)
    (hval : (g.getCell x y).value = CellValue.Number n) :
    ((g.reveal_multiple x y).status = GameStatus.Lost → g.status = GameStatus.Lost) ∧
    (∀ a b, (g.getCell a b).value = CellValue.Mined →
      (g.reveal_multiple x y).getCell a b = g.getCell a b) := by
  have h := revealLoopF_safe (revealFuel g [(x, y)] + 1) g [(x, y)] hs hn (by
    intro p hp
    rw [List.mem_singleton] at hp
    subst hp
    exact ⟨hx, hy, by rw [hval]; simp⟩)
  exact h

theorem C10_number_reveal_witness :
    NumbersCorrect demoGame ∧
    ((demoGame.reveal_multiple 0 0).status = GameStatus.Lost →
      demoGame.status = GameStatus.Lost) :=
  ⟨by unfold NumbersCorrect; decide,
   (C10_number_reveal_safe demoGame 0 0 1 (by unfold BoardShape; decide)
     (by unfold NumbersCorrect; decide) (by decide) (by decide) (by decide) (by decide)).1⟩
